import Mathlib

/-!
Verification of the CSS-like selector engine of this repository
(`bevy_elements_core/src/ess/selector.rs` and `bevy_elements_core/src/css/style.rs`).

The interned symbol type `Tag` (external `tagstr` crate) is modelled as `String`.
Rust panics (out-of-bounds indexing, `Option::unwrap` on `None`, explicit `panic!`)
are modelled as `none` (for matching) or `Except.error` (for parsing).
-/

set_option maxHeartbeats 1000000

/-- The node capability interface of the matching engine (trait `EmlNode`,
selector.rs 220-226): identifier, tag, state membership, class membership.
The parent walk (`EmlNode::next`) is modelled by passing the list of strict
ancestors alongside a node. In css/style.rs the fourth capability is called
`has_attribute`; the `has_state` field plays that role for the css engine. -/
structure EmlNodeData where
  id : Option String
  tag : String
  has_state : String → Bool
  has_class : String → Bool

/-- `SelectorElement` of ess/selector.rs (lines 19-25). -/
inductive SelectorElement where
  | AnyChild
  | Id (v : String)
  | Class (v : String)
  | Tag (v : String)
  | State (v : String)
deriving DecidableEq

namespace SelectorElement

/-- `SelectorElement::is_any_child` (selector.rs 28-33). -/
def is_any_child : SelectorElement → Bool
  | .AnyChild => true
  | _ => false

/-- `SelectorElement::is_value` (selector.rs 35-37). -/
def is_value (e : SelectorElement) : Bool := !e.is_any_child

/-- `SelectorElement::describes_node` (selector.rs 39-47). -/
def describes_node (e : SelectorElement) (node : EmlNodeData) : Bool :=
  match e with
  | .Id i => node.id == some i
  | .State s => node.has_state s
  | .Tag t => node.tag == t
  | .Class c => node.has_class c
  | .AnyChild => false

/-- `SelectorElement::to_string` (selector.rs 49-57). -/
def to_string : SelectorElement → String
  | .AnyChild => " "
  | .State s => ":" ++ s
  | .Tag t => t
  | .Class c => "." ++ c
  | .Id i => "#" ++ i

end SelectorElement

/- A `SelectorEntry` (selector.rs 62-65) is an offset into a borrowed element
sequence; the view functions below take the sequence and the offset separately. -/
namespace SelectorEntry

/-- `SelectorEntry::is_any_child` (selector.rs 109-111).  The source indexes
`elements[offset]`, which panics when out of bounds; every call site passes an
in-bounds offset, so the `getD` default is never relevant there. -/
def is_any_child (els : List SelectorElement) (offset : Nat) : Bool :=
  (els.getD offset .AnyChild).is_any_child

/-- The forward scan of `SelectorEntry::next` (selector.rs 86-88):
`while offset < len && !elements[offset].is_any_child() { offset += 1 }`,
rendered with `takeWhile` so it computes structurally. -/
def scanValues (els : List SelectorElement) (offset : Nat) : Nat :=
  offset + ((els.drop offset).takeWhile (fun e => e.is_value)).length

/-- `SelectorEntry::next` (selector.rs 74-95): parked on a combinator, step one
past it; parked on a predicate, skip the current compound; `none` when the end
of the sequence is reached. -/
def next (els : List SelectorElement) (offset : Nat) : Option Nat :=
  if is_any_child els offset then
    if offset + 1 ≥ els.length then none
    else some (offset + 1)
  else
    if scanValues els offset ≥ els.length then none
    else some (scanValues els offset)

/-- `SelectorEntry::describes_node` (selector.rs 150-164): a view parked on a
combinator describes no node; otherwise every predicate of the current compound
must describe the node (the `while` loop with early `return false`, i.e. a
short-circuit conjunction over the compound). -/
def describes_node (els : List SelectorElement) (offset : Nat) (node : EmlNodeData) : Bool :=
  if is_any_child els offset then false
  else ((els.drop offset).takeWhile (fun e => e.is_value)).all (fun e => e.describes_node node)

end SelectorEntry

/-- Rust `if cond_expr { return true } tail_expr` / `cond_expr || tail_expr` over
panic-propagating boolean computations: a panic (`none`) in the first operand
propagates, `true` short-circuits, `false` defers to the second operand. -/
def orElseP (a : Option Bool) (b : Unit → Option Bool) : Option Bool :=
  match a with
  | none => none
  | some true => some true
  | some false => b ()

/-- `EmlNode::fits` (selector.rs 228-249), the backtracking matcher.
`node` is the current node, `anc` the list of its strict ancestors from the
nearest outward; `self.next()` of the source is `anc.head?`, and the recursion
moves to `(anc.head, anc.tail)`.  A result of `none` models a panic: the
out-of-bounds `elements[offset]` in `SelectorEntry::is_any_child`, or the
`selector.next().unwrap()` when a combinator is the last stored element. -/
def EmlNode.fits (els : List SelectorElement) (offset : Nat)
    (node : EmlNodeData) (anc : List EmlNodeData) : Option Bool :=
  match hg : els.get? offset with
  | none => none
  | some e =>
    if e.is_any_child then
      match hn : SelectorEntry.next els offset with
      | none => none
      | some off2 =>
        orElseP (EmlNode.fits els off2 node anc) (fun _ =>
          match hh : anc.head? with
          | none => some false
          | some n2 =>
            orElseP (EmlNode.fits els off2 n2 anc.tail) (fun _ =>
              EmlNode.fits els offset n2 anc.tail))
    else if SelectorEntry.describes_node els offset node then
      -- the four-case match on (self.next(), selector.next())
      match hh2 : anc.head? with
      | none =>
        match SelectorEntry.next els offset with
        | none => some true
        | some _ => some false
      | some n2 =>
        match SelectorEntry.next els offset with
        | none => some true
        | some off2 => EmlNode.fits els off2 n2 anc.tail
    else some false
termination_by (anc.length, els.length - offset)
decreasing_by
  · -- first self-call: same ancestors, the view offset strictly advances
    have hlt : offset < els.length := by
      have h' := hg
      rw [List.get?_eq_getElem?] at h'
      exact (List.getElem?_eq_some_iff.mp h').1
    have hb : offset < off2 ∧ off2 < els.length := by
      unfold SelectorEntry.next at hn
      split at hn
      · split at hn
        · simp at hn
        · simp only [Option.some.injEq] at hn
          omega
      · rename_i hvz
        split at hn
        · simp at hn
        · rename_i hscan
          simp only [Option.some.injEq] at hn
          have hpos : offset < SelectorEntry.scanValues els offset := by
            unfold SelectorEntry.scanValues
            have hdrop : els.drop offset = els[offset] :: els.drop (offset + 1) :=
              List.drop_eq_getElem_cons hlt
            have hgd : els.getD offset .AnyChild = els[offset] := by
              rw [List.getD_eq_getElem?_getD, List.getElem?_eq_getElem hlt]
              rfl
            rw [hdrop]
            rw [SelectorEntry.is_any_child, hgd] at hvz
            simp only [Bool.not_eq_true] at hvz
            rw [List.takeWhile_cons_of_pos (by simp [SelectorElement.is_value, hvz])]
            simp
          omega
    apply Prod.Lex.right
    omega
  all_goals
    apply Prod.Lex.left
    cases anc <;> simp_all

/-- `Selector` (selector.rs 167-172): declaration-order index, specificity
weight, and the element sequence in right-to-left (rightmost-compound-first)
storage order. -/
structure Selector where
  index : Nat
  weight : Nat
  elements : List SelectorElement

/-- `Selector::matches` (selector.rs 201-204): build the view at offset 0 and
ask the branch's leaf whether it fits.  The branch is passed as leaf plus the
list of its strict ancestors (leaf-to-root). -/
def Selector.matches (s : Selector) (leaf : EmlNodeData) (ancestors : List EmlNodeData) :
    Option Bool :=
  EmlNode.fits s.elements 0 leaf ancestors

/-- `Selector::to_string` (selector.rs 206-212): concatenate the per-element
strings over the stored sequence in reverse storage order. -/
def Selector.to_string (s : Selector) : String :=
  s.elements.reverse.foldl (fun acc e => acc ++ e.to_string) ""

/-- A minimal concrete node carrying only a tag, in the style of the in-source
test adapter `TestNodeData` (selector.rs 424-430). -/
def nodeOf (t : String) : EmlNodeData :=
  { id := none, tag := t, has_state := fun _ => false, has_class := fun _ => false }

/-- A concrete node with id `id`, tag `div`, state `pressed` and class `red`,
in the style of the in-source test adapter `TestNodeData`. -/
def richNode : EmlNodeData :=
  { id := some "id", tag := "div",
    has_state := fun s => s == "pressed", has_class := fun c => c == "red" }

/-- Fuel-indexed unfolding of `EmlNode::fits`: `fitsFuel fuel` runs the body of
`fits` at most `fuel` levels deep; the outer `none` marks fuel exhaustion,
`some r` means the recursion completed with `fits`-result `r` inside `fuel`
levels.  Used to state that the recursion terminates within an explicit bound. -/
def fitsFuel : Nat → List SelectorElement → Nat → EmlNodeData → List EmlNodeData →
    Option (Option Bool)
  | 0, _, _, _, _ => none
  | fuel + 1, els, offset, node, anc =>
    match els.get? offset with
    | none => some none
    | some e =>
      if e.is_any_child then
        match SelectorEntry.next els offset with
        | none => some none
        | some off2 =>
          match fitsFuel fuel els off2 node anc with
          | none => none
          | some none => some none
          | some (some true) => some (some true)
          | some (some false) =>
            match anc.head? with
            | none => some (some false)
            | some n2 =>
              match fitsFuel fuel els off2 n2 anc.tail with
              | none => none
              | some none => some none
              | some (some true) => some (some true)
              | some (some false) => fitsFuel fuel els offset n2 anc.tail
      else if SelectorEntry.describes_node els offset node then
        match anc.head? with
        | none =>
          match SelectorEntry.next els offset with
          | none => some (some true)
          | some _ => some (some false)
        | some n2 =>
          match SelectorEntry.next els offset with
          | none => some (some true)
          | some off2 => fitsFuel fuel els off2 n2 anc.tail
      else some (some false)

/-- The termination measure of `EmlNode::fits`: every recursive call either
strictly advances the view offset on the same node or moves to a strictly
shallower ancestor, so this quantity strictly decreases. -/
def fitsMeasure (els : List SelectorElement) (offset : Nat) (anc : List EmlNodeData) : Nat :=
  anc.length * (els.length + 1) + (els.length - offset)

/- The second, duplicated matching engine of css/style.rs.  Its data model is
identical to ess/selector.rs except that the fourth predicate is called
`Attribute` (style.rs 18-24) and the node capability is `has_attribute`
(style.rs 200-206); the `has_state` field of the shared `EmlNodeData` plays the
`has_attribute` role here. -/
namespace css

/-- `SelectorElement` of css/style.rs (lines 18-24). -/
inductive SelectorElement where
  | AnyChild
  | Id (v : String)
  | Class (v : String)
  | Tag (v : String)
  | Attribute (v : String)
deriving DecidableEq

namespace SelectorElement

/-- `SelectorElement::is_any_child` (style.rs 27-32). -/
def is_any_child : SelectorElement → Bool
  | .AnyChild => true
  | _ => false

/-- `SelectorElement::is_value` (style.rs 34-36). -/
def is_value (e : SelectorElement) : Bool := !e.is_any_child

/-- `SelectorElement::describes_node` (style.rs 38-46); `has_attribute` is the
`has_state` field of the shared node type. -/
def describes_node (e : SelectorElement) (node : EmlNodeData) : Bool :=
  match e with
  | .Id i => node.id == some i
  | .Attribute a => node.has_state a
  | .Tag t => node.tag == t
  | .Class c => node.has_class c
  | .AnyChild => false

end SelectorElement

namespace SelectorEntry

/-- `SelectorEntry::is_any_child` (style.rs 98-100). -/
def is_any_child (els : List SelectorElement) (offset : Nat) : Bool :=
  (els.getD offset .AnyChild).is_any_child

/-- The forward scan of `SelectorEntry::next` (style.rs 75-77). -/
def scanValues (els : List SelectorElement) (offset : Nat) : Nat :=
  offset + ((els.drop offset).takeWhile (fun e => e.is_value)).length

/-- `SelectorEntry::next` (style.rs 63-84). -/
def next (els : List SelectorElement) (offset : Nat) : Option Nat :=
  if is_any_child els offset then
    if offset + 1 ≥ els.length then none
    else some (offset + 1)
  else
    if scanValues els offset ≥ els.length then none
    else some (scanValues els offset)

/-- `SelectorEntry::describes_node` (style.rs 139-153). -/
def describes_node (els : List SelectorElement) (offset : Nat) (node : EmlNodeData) : Bool :=
  if is_any_child els offset then false
  else ((els.drop offset).takeWhile (fun e => e.is_value)).all (fun e => e.describes_node node)

end SelectorEntry

/-- `EmlNode::fits` of css/style.rs (lines 208-229), textually identical to the
ess engine. -/
def EmlNode.fits (els : List SelectorElement) (offset : Nat)
    (node : EmlNodeData) (anc : List EmlNodeData) : Option Bool :=
  match hg : els.get? offset with
  | none => none
  | some e =>
    if e.is_any_child then
      match hn : SelectorEntry.next els offset with
      | none => none
      | some off2 =>
        orElseP (EmlNode.fits els off2 node anc) (fun _ =>
          match hh : anc.head? with
          | none => some false
          | some n2 =>
            orElseP (EmlNode.fits els off2 n2 anc.tail) (fun _ =>
              EmlNode.fits els offset n2 anc.tail))
    else if SelectorEntry.describes_node els offset node then
      match hh2 : anc.head? with
      | none =>
        match SelectorEntry.next els offset with
        | none => some true
        | some _ => some false
      | some n2 =>
        match SelectorEntry.next els offset with
        | none => some true
        | some off2 => EmlNode.fits els off2 n2 anc.tail
    else some false
termination_by (anc.length, els.length - offset)
decreasing_by
  · have hlt : offset < els.length := by
      have h' := hg
      rw [List.get?_eq_getElem?] at h'
      exact (List.getElem?_eq_some_iff.mp h').1
    have hb : offset < off2 ∧ off2 < els.length := by
      unfold SelectorEntry.next at hn
      split at hn
      · split at hn
        · simp at hn
        · simp only [Option.some.injEq] at hn
          omega
      · rename_i hvz
        split at hn
        · simp at hn
        · rename_i hscan
          simp only [Option.some.injEq] at hn
          have hpos : offset < SelectorEntry.scanValues els offset := by
            unfold SelectorEntry.scanValues
            have hdrop : els.drop offset = els[offset] :: els.drop (offset + 1) :=
              List.drop_eq_getElem_cons hlt
            have hgd : els.getD offset .AnyChild = els[offset] := by
              rw [List.getD_eq_getElem?_getD, List.getElem?_eq_getElem hlt]
              rfl
            rw [hdrop]
            rw [SelectorEntry.is_any_child, hgd] at hvz
            simp only [Bool.not_eq_true] at hvz
            rw [List.takeWhile_cons_of_pos (by simp [SelectorElement.is_value, hvz])]
            simp
          omega
    apply Prod.Lex.right
    omega
  all_goals
    apply Prod.Lex.left
    cases anc <;> simp_all

/-- `Element` (the `crate::Element` component the branch adapters borrow):
tag name, optional id, class set, state set. -/
structure Element where
  name : String
  id : Option String
  classes : List String
  state : List String

/-- The production adapter `ElementNode` of css/style.rs (lines 234-264) viewed
through the shared capability record: `id` and `tag` and `has_class` read the
borrowed `Element`, while `has_attribute` (style.rs 251-253) returns `false`
for every tag. -/
def elementNode (e : Element) : EmlNodeData :=
  { id := e.id, tag := e.name,
    has_state := fun _ => false,
    has_class := fun c => e.classes.contains c }

end css

/-- The identification of the two engines' element types: `State` predicates of
ess/selector.rs correspond to `Attribute` predicates of css/style.rs, all other
constructors coincide. -/
def SelectorElement.toCss : SelectorElement → css.SelectorElement
  | .AnyChild => .AnyChild
  | .Id v => .Id v
  | .Class v => .Class v
  | .Tag v => .Tag v
  | .State v => .Attribute v

/-- Modelled from the spec: character classes of the lexical layer of the
external `cssparser` crate (spec section 4.1: identifier runs, `#identifier`,
`.`, `:`, whitespace). -/
def isSpaceChar (c : Char) : Bool :=
  c = ' ' || c = '\t' || c = '\n' || c = '\r'

/-- Modelled from the spec: characters making up an identifier run. -/
def isIdentChar (c : Char) : Bool :=
  c.isAlpha || c.isDigit || c = '_' || c = '-'

/-- Modelled from the spec: the tokens of the external `cssparser` crate as
consumed by `impl From<&str> for Selector` (selector.rs 355-402): identifiers,
`#name` hashes, whitespace runs, `:`, and delimiters. -/
inductive CssToken where
  | ident (v : String)
  | idHash (v : String)
  | ws
  | colon
  | delim (c : Char)
deriving DecidableEq

/-- Modelled from the spec: the lexical layer of the external `cssparser` crate
(not under src/): a maximal whitespace run yields one `ws` token, `:` is a
colon token, `#` followed by a non-empty identifier run is an `idHash` (a bare
`#` is a plain delimiter), an identifier run is an `ident`, and any other
character is a `delim`. -/
def lex : List Char → List CssToken
  | [] => []
  | c :: rest =>
    if isSpaceChar c then .ws :: lex (rest.dropWhile isSpaceChar)
    else if c = ':' then .colon :: lex rest
    else if c = '.' then .delim '.' :: lex rest
    else if c = '#' then
      if (rest.takeWhile isIdentChar).isEmpty then .delim '#' :: lex rest
      else .idHash (String.mk (rest.takeWhile isIdentChar)) :: lex (rest.dropWhile isIdentChar)
    else if isIdentChar c then
      .ident (String.mk (c :: rest.takeWhile isIdentChar)) :: lex (rest.dropWhile isIdentChar)
    else .delim c :: lex rest
termination_by l => l.length
decreasing_by
  all_goals simp_wf
  all_goals
    first
    | omega
    | (have h : (List.dropWhile isSpaceChar rest).length ≤ rest.length :=
        (List.dropWhile_sublist isSpaceChar).length_le
       omega)
    | (have h : (List.dropWhile isIdentChar rest).length ≤ rest.length :=
        (List.dropWhile_sublist isIdentChar).length_le
       omega)

/-- The token-consuming loop of `impl From<&str> for Selector` (selector.rs
367-398).  `nxt` is the interpretation flag (NEXT_TAG = 0, NEXT_CLASS = 1,
NEXT_ATTR = 2), `acc` holds the elements built so far with
`elements.insert(0, x)` rendered as `x :: acc`; the `panic!` calls are modelled
as `Except.error`. -/
def runTokens : List CssToken → Nat → List SelectorElement → Except String (List SelectorElement)
  | [], _, acc => .ok acc
  | .ident v :: ts, nxt, acc =>
    if nxt = 0 then runTokens ts 0 (.Tag v :: acc)
    else if nxt = 1 then runTokens ts 0 (.Class v :: acc)
    else if nxt = 2 then runTokens ts 0 (.State v :: acc)
    else .error "Invalid NEXT_TAG"
  | .idHash v :: ts, nxt, acc =>
    if v = "" then .error "Invalid #id selector"
    else runTokens ts nxt (.Id v :: acc)
  | .ws :: ts, nxt, acc => runTokens ts nxt (.AnyChild :: acc)
  | .colon :: ts, _, acc => runTokens ts 2 acc
  | .delim c :: ts, nxt, acc =>
    if c = '.' then runTokens ts 1 acc
    else .error "Unexpected token"

/-- `impl From<&str> for Selector` (selector.rs 355-402): tokenize the source
and run the element-building loop from the expect-tag state with an empty
sequence; the elements of the resulting `Selector`. -/
def parseSelector (source : String) : Except String (List SelectorElement) :=
  runTokens (lex source.toList) 0 []

/-- Rendering a source-order element list back to text: the same concatenation
of `SelectorElement::to_string` shapes that `Selector::to_string` produces. -/
def renderSel (gs : List SelectorElement) : String :=
  gs.foldl (fun acc e => acc ++ e.to_string) ""

/-- Names usable in well-formed sources: non-empty identifier runs. -/
def goodName (v : String) : Bool := !v.toList.isEmpty && v.toList.all isIdentChar

def elementOK : SelectorElement → Bool
  | .AnyChild => true
  | .Id v => goodName v
  | .Class v => goodName v
  | .Tag v => goodName v
  | .State v => goodName v

/-- Adjacency discipline of the spec's source grammar (section 6): a tag
predicate only opens a compound (it may follow only a combinator or the start),
and two combinators never abut. -/
def pairOK : SelectorElement → SelectorElement → Bool
  | a, .AnyChild => a.is_value
  | a, .Tag _ => a.is_any_child
  | _, _ => true

def chainOK : List SelectorElement → Bool
  | [] => true
  | [_] => true
  | a :: b :: rest => pairOK a b && chainOK (b :: rest)

/-- Modelled from the spec (section 6 source syntax): a well-formed source is
the rendering of an element list (source order) whose names are well formed and
whose adjacency follows the grammar. -/
def wellFormed (gs : List SelectorElement) : Bool := gs.all elementOK && chainOK gs

/-- The token shapes each grammar element lexes to. -/
def tokensOf : SelectorElement → List CssToken
  | .AnyChild => [.ws]
  | .Tag t => [.ident t]
  | .Id i => [.idHash i]
  | .Class c => [.delim '.', .ident c]
  | .State s => [.colon, .ident s]

/-- The tokenizer test string of the spec (section 8) and of the in-source
tests: leading and trailing whitespace around two compounds. -/
def sampleSource : String := " div#id.cls span:attr "

/-- The element list whose rendering is `sampleSource` (source order). -/
def sampleElements : List SelectorElement :=
  [.AnyChild, .Tag "div", .Id "id", .Class "cls", .AnyChild, .Tag "span", .State "attr",
   .AnyChild]

/-- The stored (right-to-left) sequence the tokenizer builds from
`sampleSource`. -/
def sampleParsed : List SelectorElement :=
  [.AnyChild, .State "attr", .Tag "span", .AnyChild, .Class "cls", .Id "id", .Tag "div",
   .AnyChild]

namespace SelectorEntry

theorem next_some_lt {els : List SelectorElement} {offset off2 : Nat}
    (h : next els offset = some off2) : off2 < els.length := by
  unfold next at h
  split at h <;> split at h <;> simp_all <;> omega

theorem next_anyChild_succ {els : List SelectorElement} {offset off2 : Nat}
    (hac : is_any_child els offset = true) (h : next els offset = some off2) :
    off2 = offset + 1 ∧ offset + 1 < els.length := by
  simp only [next, hac, if_true] at h
  split at h
  · simp at h
  · rename_i hge
    simp only [Option.some.injEq] at h
    omega

theorem next_anyChild_none {els : List SelectorElement} {offset : Nat}
    (hac : is_any_child els offset = true) (h : next els offset = none) :
    offset + 1 ≥ els.length := by
  simp only [next, hac, if_true] at h
  split at h
  · assumption
  · simp at h

end SelectorEntry

theorem EmlNode.fits_oob (els : List SelectorElement) (offset : Nat) (node : EmlNodeData)
    (anc : List EmlNodeData) (h : els.get? offset = none) :
    EmlNode.fits els offset node anc = none := by
  rw [EmlNode.fits.eq_def]
  split
  · rfl
  · rename_i e heq
    rw [h] at heq
    simp at heq

theorem EmlNode.fits_any_none {els : List SelectorElement} {offset : Nat} {e : SelectorElement}
    (node : EmlNodeData) (anc : List EmlNodeData)
    (hg : els.get? offset = some e) (hac : e.is_any_child = true)
    (hn : SelectorEntry.next els offset = none) :
    EmlNode.fits els offset node anc = none := by
  rw [EmlNode.fits.eq_def]
  split
  · rename_i heq
    simp only [heq] at hg
    exact Option.noConfusion hg
  · rename_i e' heq
    have he : e' = e := by
      rw [hg] at heq
      exact ((Option.some.injEq _ _).mp heq).symm
    subst he
    rw [if_pos hac]
    split
    · rfl
    · rename_i off2 heq2
      rw [hn] at heq2
      cases heq2

theorem EmlNode.fits_any_some_nil {els : List SelectorElement} {offset off2 : Nat}
    {e : SelectorElement} (node : EmlNodeData)
    (hg : els.get? offset = some e) (hac : e.is_any_child = true)
    (hn : SelectorEntry.next els offset = some off2) :
    EmlNode.fits els offset node [] =
      orElseP (EmlNode.fits els off2 node []) (fun _ => some false) := by
  rw [EmlNode.fits.eq_def]
  split
  · rename_i heq
    simp only [heq] at hg
    exact Option.noConfusion hg
  · rename_i e' heq
    have he : e' = e := by
      rw [hg] at heq
      exact ((Option.some.injEq _ _).mp heq).symm
    subst he
    rw [if_pos hac]
    split
    · rename_i heq2
      simp [hn] at heq2
    · rename_i off2' heq2
      have ho : off2' = off2 := by
        rw [hn] at heq2
        exact ((Option.some.injEq _ _).mp heq2).symm
      subst ho
      rfl

theorem EmlNode.fits_any_some_cons {els : List SelectorElement} {offset off2 : Nat}
    {e : SelectorElement} (node n2 : EmlNodeData) (rest : List EmlNodeData)
    (hg : els.get? offset = some e) (hac : e.is_any_child = true)
    (hn : SelectorEntry.next els offset = some off2) :
    EmlNode.fits els offset node (n2 :: rest) =
      orElseP (EmlNode.fits els off2 node (n2 :: rest)) (fun _ =>
        orElseP (EmlNode.fits els off2 n2 rest) (fun _ =>
          EmlNode.fits els offset n2 rest)) := by
  rw [EmlNode.fits.eq_def]
  split
  · rename_i heq
    simp only [heq] at hg
    exact Option.noConfusion hg
  · rename_i e' heq
    have he : e' = e := by
      rw [hg] at heq
      exact ((Option.some.injEq _ _).mp heq).symm
    subst he
    rw [if_pos hac]
    split
    · rename_i heq2
      simp [hn] at heq2
    · rename_i off2' heq2
      have ho : off2' = off2 := by
        rw [hn] at heq2
        exact ((Option.some.injEq _ _).mp heq2).symm
      subst ho
      rfl

theorem EmlNode.fits_val_false {els : List SelectorElement} {offset : Nat} {e : SelectorElement}
    {node : EmlNodeData} (anc : List EmlNodeData)
    (hg : els.get? offset = some e) (hac : e.is_any_child = false)
    (hd : SelectorEntry.describes_node els offset node = false) :
    EmlNode.fits els offset node anc = some false := by
  rw [EmlNode.fits.eq_def]
  split
  · rename_i heq
    simp only [heq] at hg
    exact Option.noConfusion hg
  · rename_i e' heq
    have he : e' = e := by
      rw [hg] at heq
      exact ((Option.some.injEq _ _).mp heq).symm
    subst he
    rw [if_neg (by simp [hac]), if_neg (by simp [hd])]

theorem EmlNode.fits_val_true_nil_none {els : List SelectorElement} {offset : Nat}
    {e : SelectorElement} {node : EmlNodeData}
    (hg : els.get? offset = some e) (hac : e.is_any_child = false)
    (hd : SelectorEntry.describes_node els offset node = true)
    (hn : SelectorEntry.next els offset = none) :
    EmlNode.fits els offset node [] = some true := by
  rw [EmlNode.fits.eq_def]
  split
  · rename_i heq
    simp only [heq] at hg
    exact Option.noConfusion hg
  · rename_i e' heq
    have he : e' = e := by
      rw [hg] at heq
      exact ((Option.some.injEq _ _).mp heq).symm
    subst he
    rw [if_neg (by simp [hac]), if_pos hd]
    split
    · split
      · rfl
      · rename_i heq2
        simp [hn] at heq2
    · rename_i heq3
      simp at heq3

theorem EmlNode.fits_val_true_nil_some {els : List SelectorElement} {offset off2 : Nat}
    {e : SelectorElement} {node : EmlNodeData}
    (hg : els.get? offset = some e) (hac : e.is_any_child = false)
    (hd : SelectorEntry.describes_node els offset node = true)
    (hn : SelectorEntry.next els offset = some off2) :
    EmlNode.fits els offset node [] = some false := by
  rw [EmlNode.fits.eq_def]
  split
  · rename_i heq
    simp only [heq] at hg
    exact Option.noConfusion hg
  · rename_i e' heq
    have he : e' = e := by
      rw [hg] at heq
      exact ((Option.some.injEq _ _).mp heq).symm
    subst he
    rw [if_neg (by simp [hac]), if_pos hd]
    split
    · split
      · rename_i heq2
        simp [hn] at heq2
      · rfl
    · rename_i heq3
      simp at heq3

theorem EmlNode.fits_val_true_cons_none {els : List SelectorElement} {offset : Nat}
    {e : SelectorElement} {node : EmlNodeData} (n2 : EmlNodeData) (rest : List EmlNodeData)
    (hg : els.get? offset = some e) (hac : e.is_any_child = false)
    (hd : SelectorEntry.describes_node els offset node = true)
    (hn : SelectorEntry.next els offset = none) :
    EmlNode.fits els offset node (n2 :: rest) = some true := by
  rw [EmlNode.fits.eq_def]
  split
  · rename_i heq
    simp only [heq] at hg
    exact Option.noConfusion hg
  · rename_i e' heq
    have he : e' = e := by
      rw [hg] at heq
      exact ((Option.some.injEq _ _).mp heq).symm
    subst he
    rw [if_neg (by simp [hac]), if_pos hd]
    split
    · rename_i heq3
      simp at heq3
    · rename_i n2' heq3
      split
      · rfl
      · rename_i heq2
        simp [hn] at heq2

theorem EmlNode.fits_val_true_cons_some {els : List SelectorElement} {offset off2 : Nat}
    {e : SelectorElement} {node : EmlNodeData} (n2 : EmlNodeData) (rest : List EmlNodeData)
    (hg : els.get? offset = some e) (hac : e.is_any_child = false)
    (hd : SelectorEntry.describes_node els offset node = true)
    (hn : SelectorEntry.next els offset = some off2) :
    EmlNode.fits els offset node (n2 :: rest) = EmlNode.fits els off2 n2 rest := by
  rw [EmlNode.fits.eq_def]
  split
  · rename_i heq
    simp only [heq] at hg
    exact Option.noConfusion hg
  · rename_i e' heq
    have he : e' = e := by
      rw [hg] at heq
      exact ((Option.some.injEq _ _).mp heq).symm
    subst he
    rw [if_neg (by simp [hac]), if_pos hd]
    split
    · rename_i heq3
      simp at heq3
    · rename_i n2' heq3
      have hv : n2' = n2 := by
        simp only [List.head?_cons, Option.some.injEq] at heq3
        exact heq3.symm
      subst hv
      split
      · rename_i heq2
        simp [hn] at heq2
      · rename_i off2' heq2
        have ho : off2' = off2 := by
          rw [hn] at heq2
          exact ((Option.some.injEq _ _).mp heq2).symm
        subst ho
        rfl

theorem getD_of_get_some {els : List SelectorElement} {offset : Nat} {e : SelectorElement}
    (hg : els.get? offset = some e) : els.getD offset .AnyChild = e := by
  rw [List.getD_eq_getElem?_getD, ← List.get?_eq_getElem?, hg]
  rfl

theorem SelectorElement.is_any_child_false_of_value {e : SelectorElement}
    (h : e.is_value = true) : e.is_any_child = false := by
  revert h
  unfold SelectorElement.is_value
  cases e.is_any_child <;> simp

theorem orElseP_none (b : Unit → Option Bool) : orElseP none b = none := rfl

theorem orElseP_true (b : Unit → Option Bool) : orElseP (some true) b = some true := rfl

theorem orElseP_false (b : Unit → Option Bool) : orElseP (some false) b = b () := rfl

/-- On a view whose whole suffix consists of predicate elements, `fits` reduces
to the conjunction of the predicates on the current node: the compound describes
the node or not, and with no further compound the match ends there. -/
theorem fits_all_values (els : List SelectorElement) (offset : Nat) (node : EmlNodeData)
    (anc : List EmlNodeData) (hlt : offset < els.length)
    (hv : ∀ x ∈ els.drop offset, x.is_value = true) :
    EmlNode.fits els offset node anc =
      some ((els.drop offset).all (fun x => x.describes_node node)) := by
  have hg : els.get? offset = some els[offset] := by
    rw [List.get?_eq_getElem?]
    exact List.getElem?_eq_getElem hlt
  have hmem : els[offset] ∈ els.drop offset := by
    rw [List.drop_eq_getElem_cons hlt]
    exact List.mem_cons_self _ _
  have hac : els[offset].is_any_child = false :=
    SelectorElement.is_any_child_false_of_value (hv _ hmem)
  have htake : (els.drop offset).takeWhile (fun x => x.is_value) = els.drop offset :=
    List.takeWhile_eq_self_iff.mpr hv
  have hnext : SelectorEntry.next els offset = none := by
    unfold SelectorEntry.next SelectorEntry.is_any_child
    rw [getD_of_get_some hg, hac]
    simp only [Bool.false_eq_true, if_false]
    unfold SelectorEntry.scanValues
    rw [htake, List.length_drop, if_pos (by omega)]
  have hdesc : SelectorEntry.describes_node els offset node
      = (els.drop offset).all (fun x => x.describes_node node) := by
    unfold SelectorEntry.describes_node SelectorEntry.is_any_child
    rw [getD_of_get_some hg, hac, htake]
    simp
  cases anc with
  | nil =>
    cases hb : (els.drop offset).all (fun x => x.describes_node node) with
    | false => rw [EmlNode.fits_val_false _ hg hac (hdesc.trans hb)]
    | true => rw [EmlNode.fits_val_true_nil_none hg hac (hdesc.trans hb) hnext]
  | cons n2 rest =>
    cases hb : (els.drop offset).all (fun x => x.describes_node node) with
    | false => rw [EmlNode.fits_val_false _ hg hac (hdesc.trans hb)]
    | true => rw [EmlNode.fits_val_true_cons_none n2 rest hg hac (hdesc.trans hb) hnext]

/-- On a view parked on a combinator whose remainder is a single all-predicate
compound, `fits` walks: the current node itself, then each strict ancestor,
succeeding as soon as one of them satisfies the whole compound. -/
theorem fits_at_combinator (els : List SelectorElement) (p : Nat)
    (hg : els.get? p = some .AnyChild)
    (hne : els.drop (p + 1) ≠ [])
    (hv : ∀ x ∈ els.drop (p + 1), x.is_value = true) :
    ∀ (anc : List EmlNodeData) (node : EmlNodeData),
      EmlNode.fits els p node anc =
        some ((node :: anc).any
          (fun a => (els.drop (p + 1)).all (fun x => x.describes_node a))) := by
  have hp1 : p + 1 < els.length := by
    by_contra hcon
    exact hne (List.drop_eq_nil_of_le (by omega))
  have hnext : SelectorEntry.next els p = some (p + 1) := by
    unfold SelectorEntry.next SelectorEntry.is_any_child
    rw [getD_of_get_some hg]
    simp only [SelectorElement.is_any_child, if_true]
    rw [if_neg (by omega)]
  intro anc
  induction anc with
  | nil =>
    intro node
    rw [EmlNode.fits_any_some_nil node hg rfl hnext]
    rw [fits_all_values els (p + 1) node [] hp1 hv]
    cases hb : (els.drop (p + 1)).all (fun x => x.describes_node node) with
    | false =>
      rw [orElseP_false]
      simp [hb]
    | true =>
      rw [orElseP_true]
      simp [hb]
  | cons a rest ih =>
    intro node
    rw [EmlNode.fits_any_some_cons node a rest hg rfl hnext]
    rw [fits_all_values els (p + 1) node (a :: rest) hp1 hv]
    cases hb : (els.drop (p + 1)).all (fun x => x.describes_node node) with
    | true =>
      rw [orElseP_true]
      simp [hb]
    | false =>
      rw [orElseP_false]
      rw [fits_all_values els (p + 1) a rest hp1 hv]
      cases hb2 : (els.drop (p + 1)).all (fun x => x.describes_node a) with
      | true =>
        rw [orElseP_true]
        simp [hb, hb2]
      | false =>
        rw [orElseP_false, ih a]
        simp [hb, hb2]

/-- C2: a selector that is a single compound (no combinator element) matches a
non-empty chain exactly when the leaf satisfies every predicate of the
compound, regardless of the ancestors above the leaf. -/
theorem single_compound_matches (els : List SelectorElement) (leaf : EmlNodeData)
    (ancestors : List EmlNodeData) (hne : els ≠ [])
    (hv : ∀ e ∈ els, e.is_value = true) :
    Selector.matches ⟨0, 0, els⟩ leaf ancestors =
      some (els.all (fun e => e.describes_node leaf)) := by
  unfold Selector.matches
  have h := fits_all_values els 0 leaf ancestors (List.length_pos.mpr hne)
    (by simpa using hv)
  simpa using h

/-- C2 witness: the single-compound selector `.red` matches a node with class
`red` whatever ancestors are above it. -/
theorem single_compound_matches_witness :
    ([SelectorElement.Class "red"] ≠ ([] : List SelectorElement)) ∧
    (∀ e ∈ [SelectorElement.Class "red"], e.is_value = true) ∧
    Selector.matches ⟨0, 0, [SelectorElement.Class "red"]⟩ richNode [nodeOf "body"] =
      some true := by
  refine ⟨by simp, by decide, ?_⟩
  rw [single_compound_matches [SelectorElement.Class "red"] richNode [nodeOf "body"]
    (by simp) (by decide)]
  decide

/-- C1: a two-compound selector, stored as the rightmost compound `B`, one
descendant combinator, then the left compound `A`, matches a chain exactly when
the leaf satisfies every predicate of `B` and some strict ancestor of the leaf
satisfies every predicate of `A` (not necessarily the immediate parent). -/
theorem descendant_combinator_matches (A B : List SelectorElement)
    (leaf : EmlNodeData) (ancestors : List EmlNodeData)
    (hA : A ≠ []) (hB : B ≠ [])
    (hAv : ∀ e ∈ A, e.is_value = true) (hBv : ∀ e ∈ B, e.is_value = true) :
    Selector.matches ⟨0, 0, B ++ SelectorElement.AnyChild :: A⟩ leaf ancestors =
      some ((B.all fun e => e.describes_node leaf) &&
        (ancestors.any fun a => A.all fun e => e.describes_node a)) := by
  unfold Selector.matches
  obtain ⟨b, B', rfl⟩ := List.exists_cons_of_ne_nil hB
  set els : List SelectorElement := (b :: B') ++ SelectorElement.AnyChild :: A with hels
  have hlen : els.length = (b :: B').length + (A.length + 1) := by
    simp [hels]
    omega
  have hg0 : els.get? 0 = some b := rfl
  have hac : b.is_any_child = false :=
    SelectorElement.is_any_child_false_of_value (hBv b (List.mem_cons_self _ _))
  have htake : els.takeWhile (fun x => x.is_value) = b :: B' := by
    rw [hels, List.takeWhile_append_of_pos hBv,
      List.takeWhile_cons_of_neg (by simp [SelectorElement.is_value, SelectorElement.is_any_child])]
    simp
  have hdesc : SelectorEntry.describes_node els 0 leaf
      = (b :: B').all (fun x => x.describes_node leaf) := by
    unfold SelectorEntry.describes_node SelectorEntry.is_any_child
    rw [getD_of_get_some hg0, hac]
    simp only [Bool.false_eq_true, if_false, List.drop_zero]
    rw [htake]
  have hnext : SelectorEntry.next els 0 = some (b :: B').length := by
    unfold SelectorEntry.next SelectorEntry.is_any_child
    rw [getD_of_get_some hg0, hac]
    simp only [Bool.false_eq_true, if_false]
    unfold SelectorEntry.scanValues
    rw [List.drop_zero, htake, if_neg (by omega)]
    simp
  have hgp : els.get? (b :: B').length = some SelectorElement.AnyChild := by
    rw [List.get?_eq_getElem?, hels,
      List.getElem?_append_right (Nat.le_refl _)]
    simp
  have hdropA : els.drop ((b :: B').length + 1) = A := by
    rw [hels, List.drop_append]
    rfl
  cases hb : (b :: B').all (fun x => x.describes_node leaf) with
  | false =>
    rw [EmlNode.fits_val_false ancestors hg0 hac (hdesc.trans hb)]
    simp
  | true =>
    cases ancestors with
    | nil =>
      rw [EmlNode.fits_val_true_nil_some hg0 hac (hdesc.trans hb) hnext]
      simp
    | cons a1 rest =>
      rw [EmlNode.fits_val_true_cons_some a1 rest hg0 hac (hdesc.trans hb) hnext]
      rw [fits_at_combinator els (b :: B').length hgp
        (by rw [hdropA]; exact hA) (by rw [hdropA]; exact hAv) rest a1]
      rw [hdropA]
      simp

/-- C1 witness: `div span` (stored `[span, combinator, div]`) matches the chain
`[span(leaf), span, div]`, skipping one intermediate generation. -/
theorem descendant_combinator_matches_witness :
    ([SelectorElement.Tag "div"] ≠ ([] : List SelectorElement)) ∧
    ([SelectorElement.Tag "span"] ≠ ([] : List SelectorElement)) ∧
    (∀ e ∈ [SelectorElement.Tag "div"], e.is_value = true) ∧
    (∀ e ∈ [SelectorElement.Tag "span"], e.is_value = true) ∧
    Selector.matches ⟨0, 0, [SelectorElement.Tag "span", SelectorElement.AnyChild,
        SelectorElement.Tag "div"]⟩
      (nodeOf "span") [nodeOf "span", nodeOf "div"] = some true := by
  refine ⟨by simp, by simp, by decide, by decide, ?_⟩
  have h := descendant_combinator_matches [SelectorElement.Tag "div"] [SelectorElement.Tag "span"]
    (nodeOf "span") [nodeOf "span", nodeOf "div"] (by simp) (by simp) (by decide) (by decide)
  simp only [List.cons_append, List.nil_append] at h
  rw [h]
  decide

theorem SelectorEntry.is_any_child_eq {els : List SelectorElement} {offset : Nat}
    {e : SelectorElement} (hg : els.get? offset = some e) :
    SelectorEntry.is_any_child els offset = e.is_any_child := by
  unfold SelectorEntry.is_any_child
  rw [getD_of_get_some hg]

/-- C5: `SelectorEntry::describes_node` is the conjunction of the predicates of
the current compound (from the view offset up to the next combinator or the
end), hence independent of their declared order; a view parked on a combinator
describes no node.  The closed conjuncts check the `.red#id:pressed` compound on
a node with all three features (in either declared order) and on a node missing
them. -/
theorem describes_node_conjunction :
    (∀ (els : List SelectorElement) (offset : Nat) (node : EmlNodeData),
      SelectorEntry.describes_node els offset node = true ↔
        ((els.getD offset .AnyChild).is_value = true ∧
          ∀ e ∈ (els.drop offset).takeWhile (fun x => x.is_value),
            e.describes_node node = true)) ∧
    SelectorEntry.describes_node
      [SelectorElement.Class "red", SelectorElement.Id "id", SelectorElement.State "pressed"]
      0 richNode = true ∧
    SelectorEntry.describes_node
      [SelectorElement.State "pressed", SelectorElement.Id "id", SelectorElement.Class "red"]
      0 richNode = true ∧
    SelectorEntry.describes_node
      [SelectorElement.State "pressed", SelectorElement.Id "id", SelectorElement.Class "red"]
      0 (nodeOf "div") = false := by
  refine ⟨?_, by decide, by decide, by decide⟩
  intro els offset node
  unfold SelectorEntry.describes_node SelectorEntry.is_any_child
  cases hac : (els.getD offset .AnyChild).is_any_child with
  | true =>
    simp only [hac, if_true, SelectorElement.is_value, Bool.not_true, false_and, iff_false]
    simp
  | false =>
    simp only [hac, Bool.false_eq_true, if_false, SelectorElement.is_value, Bool.not_false,
      true_and]
    exact List.all_eq_true

/-- C3 (amended): on a selector whose stored sequence is non-empty and whose
last stored element is a predicate (never a combinator), `fits` evaluates
without panicking at every in-bounds offset, for every node and chain. -/
theorem fits_total (els : List SelectorElement)
    (hlast : ∀ e, els.getLast? = some e → e.is_value = true)
    (offset : Nat) (node : EmlNodeData) (anc : List EmlNodeData)
    (hlt : offset < els.length) :
    (EmlNode.fits els offset node anc).isSome = true := by
  have hg : els.get? offset = some els[offset] := by
    rw [List.get?_eq_getElem?]
    exact List.getElem?_eq_getElem hlt
  cases hac : els[offset].is_any_child with
  | true =>
    cases hn : SelectorEntry.next els offset with
    | none =>
      exfalso
      have hge := SelectorEntry.next_anyChild_none
        ((SelectorEntry.is_any_child_eq hg).trans hac) hn
      have hoff : offset = els.length - 1 := by omega
      have hlast2 : els.getLast? = some els[offset] := by
        rw [List.getLast?_eq_getElem?, ← hoff, ← List.get?_eq_getElem?]
        exact hg
      have hval := hlast _ hlast2
      rw [SelectorElement.is_value, hac] at hval
      simp at hval
    | some off2 =>
      obtain ⟨ho, hlt2⟩ := SelectorEntry.next_anyChild_succ
        ((SelectorEntry.is_any_child_eq hg).trans hac) hn
      cases anc with
      | nil =>
        rw [EmlNode.fits_any_some_nil node hg hac hn]
        have h1 := fits_total els hlast off2 node [] (by omega)
        cases hfv : EmlNode.fits els off2 node [] with
        | none => rw [hfv] at h1; simp at h1
        | some b => cases b <;> simp [orElseP]
      | cons n2 rest =>
        rw [EmlNode.fits_any_some_cons node n2 rest hg hac hn]
        have h1 := fits_total els hlast off2 node (n2 :: rest) (by omega)
        cases hfv : EmlNode.fits els off2 node (n2 :: rest) with
        | none => rw [hfv] at h1; simp at h1
        | some b =>
          cases b with
          | true => simp [orElseP]
          | false =>
            rw [orElseP_false]
            have h2 := fits_total els hlast off2 n2 rest (by omega)
            cases hfv2 : EmlNode.fits els off2 n2 rest with
            | none => rw [hfv2] at h2; simp at h2
            | some b2 =>
              cases b2 with
              | true => simp [orElseP]
              | false =>
                rw [orElseP_false]
                exact fits_total els hlast offset n2 rest hlt
  | false =>
    cases hd : SelectorEntry.describes_node els offset node with
    | false =>
      rw [EmlNode.fits_val_false anc hg hac hd]
      rfl
    | true =>
      cases anc with
      | nil =>
        cases hn : SelectorEntry.next els offset with
        | none =>
          rw [EmlNode.fits_val_true_nil_none hg hac hd hn]
          rfl
        | some o =>
          rw [EmlNode.fits_val_true_nil_some hg hac hd hn]
          rfl
      | cons n2 rest =>
        cases hn : SelectorEntry.next els offset with
        | none =>
          rw [EmlNode.fits_val_true_cons_none n2 rest hg hac hd hn]
          rfl
        | some off2 =>
          rw [EmlNode.fits_val_true_cons_some n2 rest hg hac hd hn]
          exact fits_total els hlast off2 n2 rest (SelectorEntry.next_some_lt hn)
termination_by (anc.length, els.length - offset)
decreasing_by
  all_goals simp_wf
  all_goals
    first
    | (apply Prod.Lex.left
       simp
       done)
    | (subst ho
       apply Prod.Lex.right
       omega)

theorem fitsMeasure_succ {els : List SelectorElement} {offset : Nat}
    (anc : List EmlNodeData) (hlt : offset < els.length) :
    fitsMeasure els (offset + 1) anc < fitsMeasure els offset anc := by
  unfold fitsMeasure
  omega

theorem fitsMeasure_tail (els : List SelectorElement) (off2 offset : Nat)
    (n2 : EmlNodeData) (rest : List EmlNodeData) :
    fitsMeasure els off2 rest < fitsMeasure els offset (n2 :: rest) := by
  unfold fitsMeasure
  rw [List.length_cons, Nat.succ_mul]
  omega

/-- C4: the recursion of `EmlNode::fits` terminates within the explicit measure
bound: running the fuel-indexed body with any fuel above `fitsMeasure` never
exhausts the fuel and computes exactly `fits` — each recursive step either
advances the view offset on the same node or moves to a strictly shallower
ancestor. -/
theorem fits_terminates (fuel : Nat) (els : List SelectorElement) (offset : Nat)
    (node : EmlNodeData) (anc : List EmlNodeData)
    (hm : fitsMeasure els offset anc < fuel) :
    fitsFuel fuel els offset node anc = some (EmlNode.fits els offset node anc) := by
  induction fuel generalizing offset node anc with
  | zero => omega
  | succ fuel ih =>
    cases hgm : els.get? offset with
    | none =>
      rw [EmlNode.fits_oob els offset node anc hgm]
      simp only [fitsFuel, hgm]
    | some e =>
      have hlt : offset < els.length := by
        rw [List.get?_eq_getElem?] at hgm
        exact (List.getElem?_eq_some_iff.mp hgm).1
      cases hac : e.is_any_child with
      | true =>
        cases hn : SelectorEntry.next els offset with
        | none =>
          rw [EmlNode.fits_any_none node anc hgm hac hn]
          simp only [fitsFuel, hgm, hac, if_true, hn]
        | some off2 =>
          obtain ⟨ho, hlt2⟩ := SelectorEntry.next_anyChild_succ
            ((SelectorEntry.is_any_child_eq hgm).trans hac) hn
          subst ho
          have hm1 : fitsMeasure els (offset + 1) anc < fuel := by
            have := fitsMeasure_succ anc hlt
            omega
          cases anc with
          | nil =>
            rw [EmlNode.fits_any_some_nil node hgm hac hn]
            simp only [fitsFuel, hgm, hac, if_true, hn, ih (offset + 1) node [] hm1]
            cases EmlNode.fits els (offset + 1) node [] with
            | none => rfl
            | some b => cases b <;> rfl
          | cons n2 rest =>
            rw [EmlNode.fits_any_some_cons node n2 rest hgm hac hn]
            have hm2 : fitsMeasure els (offset + 1) rest < fuel := by
              have := fitsMeasure_tail els (offset + 1) offset n2 rest
              omega
            have hm3 : fitsMeasure els offset rest < fuel := by
              have := fitsMeasure_tail els offset offset n2 rest
              omega
            simp only [fitsFuel, hgm, hac, if_true, hn, ih (offset + 1) node (n2 :: rest) hm1,
              List.head?_cons, List.tail_cons, ih (offset + 1) n2 rest hm2, ih offset n2 rest hm3]
            cases EmlNode.fits els (offset + 1) node (n2 :: rest) with
            | none => rfl
            | some b =>
              cases b with
              | true => rfl
              | false =>
                rw [orElseP_false]
                cases EmlNode.fits els (offset + 1) n2 rest with
                | none => rfl
                | some b2 => cases b2 <;> rfl
      | false =>
        cases hd : SelectorEntry.describes_node els offset node with
        | false =>
          rw [EmlNode.fits_val_false anc hgm hac hd]
          simp only [fitsFuel, hgm, hac, hd]
          rfl
        | true =>
          cases anc with
          | nil =>
            cases hn : SelectorEntry.next els offset with
            | none =>
              rw [EmlNode.fits_val_true_nil_none hgm hac hd hn]
              simp only [fitsFuel, hgm, hac, hd, hn]
              rfl
            | some o =>
              rw [EmlNode.fits_val_true_nil_some hgm hac hd hn]
              simp only [fitsFuel, hgm, hac, hd, hn]
              rfl
          | cons n2 rest =>
            cases hn : SelectorEntry.next els offset with
            | none =>
              rw [EmlNode.fits_val_true_cons_none n2 rest hgm hac hd hn]
              simp only [fitsFuel, hgm, hac, hd, hn, List.head?_cons]
              rfl
            | some off2 =>
              rw [EmlNode.fits_val_true_cons_some n2 rest hgm hac hd hn]
              have hm4 : fitsMeasure els off2 rest < fuel := by
                have := fitsMeasure_tail els off2 offset n2 rest
                omega
              simp only [fitsFuel, hgm, hac, hd, hn, List.head?_cons, List.tail_cons]
              exact ih off2 n2 rest hm4

/-- C4 witness: on the selector `div span` and a two-node chain the measure
bound is met at fuel 12 and the fuel-indexed recursion completes. -/
theorem fits_terminates_witness :
    fitsMeasure [SelectorElement.Tag "span", SelectorElement.AnyChild, SelectorElement.Tag "div"]
        0 [nodeOf "div"] < 12 ∧
    fitsFuel 12 [SelectorElement.Tag "span", SelectorElement.AnyChild, SelectorElement.Tag "div"]
        0 (nodeOf "span") [nodeOf "div"] =
      some (EmlNode.fits [SelectorElement.Tag "span", SelectorElement.AnyChild,
        SelectorElement.Tag "div"] 0 (nodeOf "span") [nodeOf "div"]) := by
  exact ⟨by decide,
    fits_terminates 12 [SelectorElement.Tag "span", SelectorElement.AnyChild,
      SelectorElement.Tag "div"] 0 (nodeOf "span") [nodeOf "div"] (by decide)⟩

/-- C3 (amended): `Selector::matches` panics for no chain when the stored
sequence is non-empty and does not end in a combinator (which holds for every
tokenizer output whose source has a predicate token and no leading whitespace);
the original claim fails for sources with leading whitespace, see the
counterexample. -/
theorem matches_total (els : List SelectorElement) (leaf : EmlNodeData)
    (ancestors : List EmlNodeData) (hne : els ≠ [])
    (hlast : ∀ e, els.getLast? = some e → e.is_value = true) :
    (Selector.matches ⟨0, 0, els⟩ leaf ancestors).isSome = true :=
  fits_total els hlast 0 leaf ancestors (List.length_pos.mpr hne)

/-- C3 witness: matching the selector `div` never panics on a two-node chain. -/
theorem matches_total_witness :
    ([SelectorElement.Tag "div"] ≠ ([] : List SelectorElement)) ∧
    (∀ e, [SelectorElement.Tag "div"].getLast? = some e → e.is_value = true) ∧
    (Selector.matches ⟨0, 0, [SelectorElement.Tag "div"]⟩ (nodeOf "span")
      [nodeOf "div"]).isSome = true := by
  refine ⟨by simp, by decide, ?_⟩
  exact matches_total [SelectorElement.Tag "div"] (nodeOf "span") [nodeOf "div"]
    (by simp) (by decide)


/- Step lemmas for the css engine, textually mirroring the ess ones. -/
namespace css

theorem EmlNode.cfits_oob (els : List SelectorElement) (offset : Nat) (node : EmlNodeData)
    (anc : List EmlNodeData) (h : els.get? offset = none) :
    EmlNode.fits els offset node anc = none := by
  rw [EmlNode.fits.eq_def]
  split
  · rfl
  · rename_i e heq
    rw [h] at heq
    simp at heq

theorem EmlNode.cfits_any_none {els : List SelectorElement} {offset : Nat} {e : SelectorElement}
    (node : EmlNodeData) (anc : List EmlNodeData)
    (hg : els.get? offset = some e) (hac : e.is_any_child = true)
    (hn : SelectorEntry.next els offset = none) :
    EmlNode.fits els offset node anc = none := by
  rw [EmlNode.fits.eq_def]
  split
  · rename_i heq
    simp only [heq] at hg
    exact Option.noConfusion hg
  · rename_i e' heq
    have he : e' = e := by
      rw [hg] at heq
      exact ((Option.some.injEq _ _).mp heq).symm
    subst he
    rw [if_pos hac]
    split
    · rfl
    · rename_i off2 heq2
      rw [hn] at heq2
      cases heq2

theorem EmlNode.cfits_any_some_nil {els : List SelectorElement} {offset off2 : Nat}
    {e : SelectorElement} (node : EmlNodeData)
    (hg : els.get? offset = some e) (hac : e.is_any_child = true)
    (hn : SelectorEntry.next els offset = some off2) :
    EmlNode.fits els offset node [] =
      orElseP (EmlNode.fits els off2 node []) (fun _ => some false) := by
  rw [EmlNode.fits.eq_def]
  split
  · rename_i heq
    simp only [heq] at hg
    exact Option.noConfusion hg
  · rename_i e' heq
    have he : e' = e := by
      rw [hg] at heq
      exact ((Option.some.injEq _ _).mp heq).symm
    subst he
    rw [if_pos hac]
    split
    · rename_i heq2
      simp [hn] at heq2
    · rename_i off2' heq2
      have ho : off2' = off2 := by
        rw [hn] at heq2
        exact ((Option.some.injEq _ _).mp heq2).symm
      subst ho
      rfl

theorem EmlNode.cfits_any_some_cons {els : List SelectorElement} {offset off2 : Nat}
    {e : SelectorElement} (node n2 : EmlNodeData) (rest : List EmlNodeData)
    (hg : els.get? offset = some e) (hac : e.is_any_child = true)
    (hn : SelectorEntry.next els offset = some off2) :
    EmlNode.fits els offset node (n2 :: rest) =
      orElseP (EmlNode.fits els off2 node (n2 :: rest)) (fun _ =>
        orElseP (EmlNode.fits els off2 n2 rest) (fun _ =>
          EmlNode.fits els offset n2 rest)) := by
  rw [EmlNode.fits.eq_def]
  split
  · rename_i heq
    simp only [heq] at hg
    exact Option.noConfusion hg
  · rename_i e' heq
    have he : e' = e := by
      rw [hg] at heq
      exact ((Option.some.injEq _ _).mp heq).symm
    subst he
    rw [if_pos hac]
    split
    · rename_i heq2
      simp [hn] at heq2
    · rename_i off2' heq2
      have ho : off2' = off2 := by
        rw [hn] at heq2
        exact ((Option.some.injEq _ _).mp heq2).symm
      subst ho
      rfl

theorem EmlNode.cfits_val_false {els : List SelectorElement} {offset : Nat} {e : SelectorElement}
    {node : EmlNodeData} (anc : List EmlNodeData)
    (hg : els.get? offset = some e) (hac : e.is_any_child = false)
    (hd : SelectorEntry.describes_node els offset node = false) :
    EmlNode.fits els offset node anc = some false := by
  rw [EmlNode.fits.eq_def]
  split
  · rename_i heq
    simp only [heq] at hg
    exact Option.noConfusion hg
  · rename_i e' heq
    have he : e' = e := by
      rw [hg] at heq
      exact ((Option.some.injEq _ _).mp heq).symm
    subst he
    rw [if_neg (by simp [hac]), if_neg (by simp [hd])]

theorem EmlNode.cfits_val_true_nil_none {els : List SelectorElement} {offset : Nat}
    {e : SelectorElement} {node : EmlNodeData}
    (hg : els.get? offset = some e) (hac : e.is_any_child = false)
    (hd : SelectorEntry.describes_node els offset node = true)
    (hn : SelectorEntry.next els offset = none) :
    EmlNode.fits els offset node [] = some true := by
  rw [EmlNode.fits.eq_def]
  split
  · rename_i heq
    simp only [heq] at hg
    exact Option.noConfusion hg
  · rename_i e' heq
    have he : e' = e := by
      rw [hg] at heq
      exact ((Option.some.injEq _ _).mp heq).symm
    subst he
    rw [if_neg (by simp [hac]), if_pos hd]
    split
    · split
      · rfl
      · rename_i heq2
        simp [hn] at heq2
    · rename_i heq3
      simp at heq3

theorem EmlNode.cfits_val_true_nil_some {els : List SelectorElement} {offset off2 : Nat}
    {e : SelectorElement} {node : EmlNodeData}
    (hg : els.get? offset = some e) (hac : e.is_any_child = false)
    (hd : SelectorEntry.describes_node els offset node = true)
    (hn : SelectorEntry.next els offset = some off2) :
    EmlNode.fits els offset node [] = some false := by
  rw [EmlNode.fits.eq_def]
  split
  · rename_i heq
    simp only [heq] at hg
    exact Option.noConfusion hg
  · rename_i e' heq
    have he : e' = e := by
      rw [hg] at heq
      exact ((Option.some.injEq _ _).mp heq).symm
    subst he
    rw [if_neg (by simp [hac]), if_pos hd]
    split
    · split
      · rename_i heq2
        simp [hn] at heq2
      · rfl
    · rename_i heq3
      simp at heq3

theorem EmlNode.cfits_val_true_cons_none {els : List SelectorElement} {offset : Nat}
    {e : SelectorElement} {node : EmlNodeData} (n2 : EmlNodeData) (rest : List EmlNodeData)
    (hg : els.get? offset = some e) (hac : e.is_any_child = false)
    (hd : SelectorEntry.describes_node els offset node = true)
    (hn : SelectorEntry.next els offset = none) :
    EmlNode.fits els offset node (n2 :: rest) = some true := by
  rw [EmlNode.fits.eq_def]
  split
  · rename_i heq
    simp only [heq] at hg
    exact Option.noConfusion hg
  · rename_i e' heq
    have he : e' = e := by
      rw [hg] at heq
      exact ((Option.some.injEq _ _).mp heq).symm
    subst he
    rw [if_neg (by simp [hac]), if_pos hd]
    split
    · rename_i heq3
      simp at heq3
    · rename_i n2' heq3
      split
      · rfl
      · rename_i heq2
        simp [hn] at heq2

theorem EmlNode.cfits_val_true_cons_some {els : List SelectorElement} {offset off2 : Nat}
    {e : SelectorElement} {node : EmlNodeData} (n2 : EmlNodeData) (rest : List EmlNodeData)
    (hg : els.get? offset = some e) (hac : e.is_any_child = false)
    (hd : SelectorEntry.describes_node els offset node = true)
    (hn : SelectorEntry.next els offset = some off2) :
    EmlNode.fits els offset node (n2 :: rest) = EmlNode.fits els off2 n2 rest := by
  rw [EmlNode.fits.eq_def]
  split
  · rename_i heq
    simp only [heq] at hg
    exact Option.noConfusion hg
  · rename_i e' heq
    have he : e' = e := by
      rw [hg] at heq
      exact ((Option.some.injEq _ _).mp heq).symm
    subst he
    rw [if_neg (by simp [hac]), if_pos hd]
    split
    · rename_i heq3
      simp at heq3
    · rename_i n2' heq3
      have hv : n2' = n2 := by
        simp only [List.head?_cons, Option.some.injEq] at heq3
        exact heq3.symm
      subst hv
      split
      · rename_i heq2
        simp [hn] at heq2
      · rename_i off2' heq2
        have ho : off2' = off2 := by
          rw [hn] at heq2
          exact ((Option.some.injEq _ _).mp heq2).symm
        subst ho
        rfl

end css

theorem toCss_is_any_child (e : SelectorElement) :
    (e.toCss).is_any_child = e.is_any_child := by
  cases e <;> rfl

theorem toCss_is_value (e : SelectorElement) : (e.toCss).is_value = e.is_value := by
  cases e <;> rfl

theorem toCss_describes_node (e : SelectorElement) (node : EmlNodeData) :
    css.SelectorElement.describes_node e.toCss node = e.describes_node node := by
  cases e <;> rfl

theorem map_toCss_get? (els : List SelectorElement) (offset : Nat) :
    (els.map SelectorElement.toCss).get? offset =
      (els.get? offset).map SelectorElement.toCss := by
  rw [List.get?_eq_getElem?, List.get?_eq_getElem?, List.getElem?_map]

theorem map_toCss_is_any_child (els : List SelectorElement) (offset : Nat) :
    css.SelectorEntry.is_any_child (els.map SelectorElement.toCss) offset =
      SelectorEntry.is_any_child els offset := by
  unfold css.SelectorEntry.is_any_child SelectorEntry.is_any_child
  rw [List.getD_eq_getElem?_getD, List.getD_eq_getElem?_getD, List.getElem?_map]
  cases els[offset]? with
  | none => rfl
  | some e => simp [toCss_is_any_child]

theorem map_toCss_scanValues (els : List SelectorElement) (offset : Nat) :
    css.SelectorEntry.scanValues (els.map SelectorElement.toCss) offset =
      SelectorEntry.scanValues els offset := by
  unfold css.SelectorEntry.scanValues SelectorEntry.scanValues
  congr 1
  rw [← List.map_drop, List.takeWhile_map, List.length_map]
  have hp : ((fun (e : css.SelectorElement) => e.is_value) ∘ SelectorElement.toCss)
      = fun (e : SelectorElement) => e.is_value := funext toCss_is_value
  rw [hp]

theorem map_toCss_next (els : List SelectorElement) (offset : Nat) :
    css.SelectorEntry.next (els.map SelectorElement.toCss) offset =
      SelectorEntry.next els offset := by
  unfold css.SelectorEntry.next SelectorEntry.next
  rw [map_toCss_is_any_child, map_toCss_scanValues, List.length_map]

theorem all_map_comp {α β : Type} (l : List α) (f : α → β) (p : β → Bool) :
    (l.map f).all p = l.all (p ∘ f) := by
  induction l with
  | nil => rfl
  | cons a t ih => simp [ih]

theorem map_toCss_describes (els : List SelectorElement) (offset : Nat) (node : EmlNodeData) :
    css.SelectorEntry.describes_node (els.map SelectorElement.toCss) offset node =
      SelectorEntry.describes_node els offset node := by
  unfold css.SelectorEntry.describes_node SelectorEntry.describes_node
  rw [map_toCss_is_any_child]
  cases hac : SelectorEntry.is_any_child els offset with
  | true => rfl
  | false =>
    simp only [hac, Bool.false_eq_true, if_false]
    rw [← List.map_drop, List.takeWhile_map, all_map_comp]
    have hp : ((fun (e : css.SelectorElement) => e.is_value) ∘ SelectorElement.toCss)
        = fun (e : SelectorElement) => e.is_value := funext toCss_is_value
    have hq : ((fun (e : css.SelectorElement) => css.SelectorElement.describes_node e node)
        ∘ SelectorElement.toCss)
        = fun (e : SelectorElement) => e.describes_node node :=
      funext (fun e => toCss_describes_node e node)
    rw [hp, hq]

/-- C9: the two duplicated matching engines are extensionally equal: translating
an ess/selector.rs element sequence to css/style.rs elements (identifying
`State` with `Attribute`) and running the css `fits` on the same node chain
(which answers the id, tag, class, and state/attribute queries identically)
gives exactly the ess `fits` answer, at every offset. -/
theorem css_fits_eq_ess (els : List SelectorElement) (offset : Nat) (node : EmlNodeData)
    (anc : List EmlNodeData) :
    css.EmlNode.fits (els.map SelectorElement.toCss) offset node anc =
      EmlNode.fits els offset node anc := by
  cases hgm : els.get? offset with
  | none =>
    have hgm' : (els.map SelectorElement.toCss).get? offset = none := by
      rw [map_toCss_get?, hgm]
      rfl
    rw [EmlNode.fits_oob els offset node anc hgm,
      css.EmlNode.cfits_oob _ offset node anc hgm']
  | some e =>
    have hgm' : (els.map SelectorElement.toCss).get? offset = some e.toCss := by
      rw [map_toCss_get?, hgm]
      rfl
    cases hac : e.is_any_child with
    | true =>
      have hac' : (e.toCss).is_any_child = true := (toCss_is_any_child e).trans hac
      cases hn : SelectorEntry.next els offset with
      | none =>
        have hn' : css.SelectorEntry.next (els.map SelectorElement.toCss) offset = none :=
          (map_toCss_next els offset).trans hn
        rw [EmlNode.fits_any_none node anc hgm hac hn,
          css.EmlNode.cfits_any_none node anc hgm' hac' hn']
      | some off2 =>
        have hn' : css.SelectorEntry.next (els.map SelectorElement.toCss) offset = some off2 :=
          (map_toCss_next els offset).trans hn
        obtain ⟨ho, hlt2⟩ := SelectorEntry.next_anyChild_succ
          ((SelectorEntry.is_any_child_eq hgm).trans hac) hn
        subst ho
        cases anc with
        | nil =>
          rw [EmlNode.fits_any_some_nil node hgm hac hn,
            css.EmlNode.cfits_any_some_nil node hgm' hac' hn']
          rw [css_fits_eq_ess els (offset + 1) node []]
        | cons n2 rest =>
          rw [EmlNode.fits_any_some_cons node n2 rest hgm hac hn,
            css.EmlNode.cfits_any_some_cons node n2 rest hgm' hac' hn']
          rw [css_fits_eq_ess els (offset + 1) node (n2 :: rest),
            css_fits_eq_ess els (offset + 1) n2 rest,
            css_fits_eq_ess els offset n2 rest]
    | false =>
      have hac' : (e.toCss).is_any_child = false := (toCss_is_any_child e).trans hac
      cases hd : SelectorEntry.describes_node els offset node with
      | false =>
        have hd' := (map_toCss_describes els offset node).trans hd
        rw [EmlNode.fits_val_false anc hgm hac hd,
          css.EmlNode.cfits_val_false anc hgm' hac' hd']
      | true =>
        have hd' := (map_toCss_describes els offset node).trans hd
        cases anc with
        | nil =>
          cases hn : SelectorEntry.next els offset with
          | none =>
            have hn' := (map_toCss_next els offset).trans hn
            rw [EmlNode.fits_val_true_nil_none hgm hac hd hn,
              css.EmlNode.cfits_val_true_nil_none hgm' hac' hd' hn']
          | some o =>
            have hn' := (map_toCss_next els offset).trans hn
            rw [EmlNode.fits_val_true_nil_some hgm hac hd hn,
              css.EmlNode.cfits_val_true_nil_some hgm' hac' hd' hn']
        | cons n2 rest =>
          cases hn : SelectorEntry.next els offset with
          | none =>
            have hn' := (map_toCss_next els offset).trans hn
            rw [EmlNode.fits_val_true_cons_none n2 rest hgm hac hd hn,
              css.EmlNode.cfits_val_true_cons_none n2 rest hgm' hac' hd' hn']
          | some off2 =>
            have hn' := (map_toCss_next els offset).trans hn
            rw [EmlNode.fits_val_true_cons_some n2 rest hgm hac hd hn,
              css.EmlNode.cfits_val_true_cons_some n2 rest hgm' hac' hd' hn']
            exact css_fits_eq_ess els off2 n2 rest
termination_by (anc.length, els.length - offset)
decreasing_by
  all_goals simp_wf
  all_goals
    first
    | (apply Prod.Lex.left
       simp
       done)
    | (apply Prod.Lex.right
       omega)

/-- C10: the css/style.rs production adapter answers `has_attribute` with
`false` for every node and tag; hence an `Attribute` predicate describes no
adapter node, and a compound whose predicates include an `Attribute` never
describes an adapter node. -/
theorem attribute_never_describes :
    (∀ (e : css.Element) (a : String), (css.elementNode e).has_state a = false) ∧
    (∀ (e : css.Element) (a : String),
      css.SelectorElement.describes_node (.Attribute a) (css.elementNode e) = false) ∧
    (∀ (els : List css.SelectorElement) (offset : Nat) (e : css.Element) (a : String),
      css.SelectorElement.Attribute a ∈
          (els.drop offset).takeWhile (fun x => x.is_value) →
      css.SelectorEntry.describes_node els offset (css.elementNode e) = false) := by
  refine ⟨fun e a => rfl, fun e a => rfl, ?_⟩
  intro els offset e a hmem
  unfold css.SelectorEntry.describes_node
  cases hac : css.SelectorEntry.is_any_child els offset with
  | true => simp [hac]
  | false =>
    simp only [hac, Bool.false_eq_true, if_false]
    cases hall : ((els.drop offset).takeWhile (fun x => x.is_value)).all
        (fun x => css.SelectorElement.describes_node x (css.elementNode e)) with
    | false => rfl
    | true =>
      exfalso
      have hx := List.all_eq_true.mp hall _ hmem
      simp [css.SelectorElement.describes_node, css.elementNode] at hx

/-- C10 witness: the compound `:hover` (a single `Attribute` predicate) never
describes a node reached through the production adapter. -/
theorem attribute_never_describes_witness :
    (css.SelectorElement.Attribute "hover" ∈
      (([css.SelectorElement.Attribute "hover"] : List css.SelectorElement).drop 0).takeWhile
        (fun x => x.is_value)) ∧
    css.SelectorEntry.describes_node [css.SelectorElement.Attribute "hover"] 0
      (css.elementNode ⟨"div", none, ["red"], []⟩) = false := by
  refine ⟨by decide, ?_⟩
  exact attribute_never_describes.2.2 [css.SelectorElement.Attribute "hover"] 0
    ⟨"div", none, ["red"], []⟩ "hover" (by decide)

theorem space_not_ident {c : Char} (h : isSpaceChar c = true) : isIdentChar c = false := by
  simp only [isSpaceChar, Bool.or_eq_true, decide_eq_true_eq] at h
  rcases h with ((h | h) | h) | h <;> subst h <;> decide

theorem ident_not_space {c : Char} (h : isIdentChar c = true) : isSpaceChar c = false := by
  cases hs : isSpaceChar c with
  | false => rfl
  | true =>
    rw [space_not_ident hs] at h
    exact absurd h (by simp)

theorem ident_ne_colon {c : Char} (h : isIdentChar c = true) : ¬ c = ':' := by
  intro hc
  subst hc
  exact absurd h (by decide)

theorem ident_ne_dot {c : Char} (h : isIdentChar c = true) : ¬ c = '.' := by
  intro hc
  subst hc
  exact absurd h (by decide)

theorem ident_ne_hash {c : Char} (h : isIdentChar c = true) : ¬ c = '#' := by
  intro hc
  subst hc
  exact absurd h (by decide)

theorem dropWhile_head_false {p : Char → Bool} {l : List Char}
    (h : ∀ c cs, l = c :: cs → p c = false) : l.dropWhile p = l := by
  cases l with
  | nil => rfl
  | cons c cs => rw [List.dropWhile_cons_of_neg (by simp [h c cs rfl])]

theorem takeWhile_head_false {p : Char → Bool} {l : List Char}
    (h : ∀ c cs, l = c :: cs → p c = false) : l.takeWhile p = [] := by
  cases l with
  | nil => rfl
  | cons c cs => rw [List.takeWhile_cons_of_neg (by simp [h c cs rfl])]

theorem toList_append (s t : String) : (s ++ t).toList = s.toList ++ t.toList :=
  String.data_append s t

theorem string_mk_toList (s : String) : String.mk s.toList = s := rfl

theorem renderSel_shift (gs : List SelectorElement) (a : String) :
    gs.foldl (fun acc e => acc ++ e.to_string) a
      = a ++ gs.foldl (fun acc e => acc ++ e.to_string) "" := by
  induction gs generalizing a with
  | nil => simp [List.foldl_nil]
  | cons g t ih =>
    rw [List.foldl_cons, List.foldl_cons, ih, ih (("" : String) ++ g.to_string)]
    rw [String.empty_append, String.append_assoc]

theorem renderSel_cons (g : SelectorElement) (gs : List SelectorElement) :
    renderSel (g :: gs) = g.to_string ++ renderSel gs := by
  unfold renderSel
  rw [List.foldl_cons, renderSel_shift, String.empty_append]

theorem lex_ident_run (v rest : List Char) (hne : v ≠ [])
    (hv : ∀ c ∈ v, isIdentChar c = true)
    (hrest : ∀ c cs, rest = c :: cs → isIdentChar c = false) :
    lex (v ++ rest) = .ident (String.mk v) :: lex rest := by
  obtain ⟨c, cs, rfl⟩ := List.exists_cons_of_ne_nil hne
  have hc : isIdentChar c = true := hv c (List.mem_cons_self _ _)
  have htail : ∀ x ∈ cs, isIdentChar x = true := fun x hx => hv x (List.mem_cons_of_mem _ hx)
  have htw : (cs ++ rest).takeWhile isIdentChar = cs := by
    rw [List.takeWhile_append_of_pos htail, takeWhile_head_false hrest, List.append_nil]
  have hdw : (cs ++ rest).dropWhile isIdentChar = rest := by
    rw [List.dropWhile_append_of_pos htail, dropWhile_head_false hrest]
  rw [List.cons_append, lex]
  rw [if_neg (by simp [ident_not_space hc]), if_neg (ident_ne_colon hc),
    if_neg (ident_ne_dot hc), if_neg (ident_ne_hash hc), if_pos hc, htw, hdw]

theorem renderSel_head_not_space (t : List SelectorElement)
    (hok : t.all elementOK = true)
    (hhead : ∀ b t', t = b :: t' → b.is_any_child = false) :
    ∀ c cs, (renderSel t).toList = c :: cs → isSpaceChar c = false := by
  cases t with
  | nil =>
    intro c cs h
    exact absurd h (by simp [renderSel])
  | cons b t' =>
    have hb := hhead b t' rfl
    have hokb : elementOK b = true := List.all_eq_true.mp hok b (List.mem_cons_self _ _)
    intro c cs h
    rw [renderSel_cons, toList_append] at h
    cases b with
    | AnyChild => exact absurd hb (by simp [SelectorElement.is_any_child])
    | Tag v =>
      simp only [elementOK, goodName, Bool.and_eq_true, Bool.not_eq_true'] at hokb
      cases hvl : v.toList with
      | nil => rw [hvl] at hokb; exact absurd hokb.1 (by simp)
      | cons d ds =>
        rw [show SelectorElement.to_string (.Tag v) = v from rfl, hvl] at h
        have hcd : c = d := by
          rw [List.cons_append] at h
          injection h with h1 h2; exact h1.symm
        subst hcd
        have hd : isIdentChar c = true := by
          have := List.all_eq_true.mp hokb.2
          exact this c (by rw [hvl]; exact List.mem_cons_self _ _)
        exact ident_not_space hd
    | Id v =>
      have hc : c = '#' := by
        rw [show SelectorElement.to_string (.Id v) = "#" ++ v from rfl, toList_append,
          show ("#" : String).toList = ['#'] from rfl, List.cons_append] at h
        injection h with h1 h2; exact h1.symm
      subst hc
      decide
    | Class v =>
      have hc : c = '.' := by
        rw [show SelectorElement.to_string (.Class v) = "." ++ v from rfl, toList_append,
          show ("." : String).toList = ['.'] from rfl, List.cons_append] at h
        injection h with h1 h2; exact h1.symm
      subst hc
      decide
    | State v =>
      have hc : c = ':' := by
        rw [show SelectorElement.to_string (.State v) = ":" ++ v from rfl, toList_append,
          show (":" : String).toList = [':'] from rfl, List.cons_append] at h
        injection h with h1 h2; exact h1.symm
      subst hc
      decide

theorem renderSel_head_not_ident (t : List SelectorElement)
    (hok : t.all elementOK = true)
    (hhead : ∀ b t', t = b :: t' → ∀ v, ¬ b = SelectorElement.Tag v) :
    ∀ c cs, (renderSel t).toList = c :: cs → isIdentChar c = false := by
  cases t with
  | nil =>
    intro c cs h
    exact absurd h (by simp [renderSel])
  | cons b t' =>
    intro c cs h
    rw [renderSel_cons, toList_append] at h
    cases b with
    | Tag v => exact absurd rfl (hhead _ t' rfl v)
    | AnyChild =>
      have hc : c = ' ' := by
        rw [show SelectorElement.to_string .AnyChild = " " from rfl,
          show (" " : String).toList = [' '] from rfl, List.cons_append] at h
        injection h with h1 h2; exact h1.symm
      subst hc
      decide
    | Id v =>
      have hc : c = '#' := by
        rw [show SelectorElement.to_string (.Id v) = "#" ++ v from rfl, toList_append,
          show ("#" : String).toList = ['#'] from rfl, List.cons_append] at h
        injection h with h1 h2; exact h1.symm
      subst hc
      decide
    | Class v =>
      have hc : c = '.' := by
        rw [show SelectorElement.to_string (.Class v) = "." ++ v from rfl, toList_append,
          show ("." : String).toList = ['.'] from rfl, List.cons_append] at h
        injection h with h1 h2; exact h1.symm
      subst hc
      decide
    | State v =>
      have hc : c = ':' := by
        rw [show SelectorElement.to_string (.State v) = ":" ++ v from rfl, toList_append,
          show (":" : String).toList = [':'] from rfl, List.cons_append] at h
        injection h with h1 h2; exact h1.symm
      subst hc
      decide

theorem wellFormed_cons {g : SelectorElement} {t : List SelectorElement}
    (h : wellFormed (g :: t) = true) :
    elementOK g = true ∧ wellFormed t = true ∧
      (∀ b t', t = b :: t' → pairOK g b = true) := by
  simp only [wellFormed, Bool.and_eq_true, List.all_cons] at h
  obtain ⟨⟨hg, hall⟩, hchain⟩ := h
  refine ⟨hg, ?_, ?_⟩
  · simp only [wellFormed, Bool.and_eq_true]
    refine ⟨hall, ?_⟩
    cases t with
    | nil => rfl
    | cons b t' =>
      simp only [chainOK, Bool.and_eq_true] at hchain
      exact hchain.2
  · intro b t' ht
    subst ht
    simp only [chainOK, Bool.and_eq_true] at hchain
    exact hchain.1

theorem head_not_tag_of_pair {g : SelectorElement} {t : List SelectorElement}
    (hpair : ∀ b t', t = b :: t' → pairOK g b = true)
    (hgv : g.is_any_child = false) :
    ∀ b t', t = b :: t' → ∀ w, ¬ b = SelectorElement.Tag w := by
  intro b t' ht w hbw
  subst hbw
  have hp := hpair _ t' ht
  simp only [pairOK, hgv] at hp
  exact absurd hp (by simp)

theorem lex_renderSel (gs : List SelectorElement) (hwf : wellFormed gs = true) :
    lex (renderSel gs).toList = (gs.map tokensOf).flatten := by
  induction gs with
  | nil =>
    rw [show (renderSel []).toList = ([] : List Char) from rfl, lex]
    rfl
  | cons g t ih =>
    obtain ⟨hokg, hwft, hpair⟩ := wellFormed_cons hwf
    have hallt : t.all elementOK = true := by
      simp only [wellFormed, Bool.and_eq_true] at hwft
      exact hwft.1
    rw [renderSel_cons, toList_append, List.map_cons, List.flatten_cons]
    cases g with
    | AnyChild =>
      have hhead : ∀ b t', t = b :: t' → b.is_any_child = false := by
        intro b t' ht
        have hp := hpair b t' ht
        cases b with
        | AnyChild =>
          exact absurd hp
            (by simp [pairOK, SelectorElement.is_value, SelectorElement.is_any_child])
        | Tag v => rfl
        | Id v => rfl
        | Class v => rfl
        | State v => rfl
      rw [show (SelectorElement.to_string .AnyChild).toList = [' '] from rfl,
        List.singleton_append, lex, if_pos (by decide),
        dropWhile_head_false (renderSel_head_not_space t hallt hhead), ih hwft]
      rfl
    | Tag v =>
      have hok2 : v.toList ≠ [] ∧ ∀ c ∈ v.toList, isIdentChar c = true := by
        simp only [elementOK, goodName, Bool.and_eq_true, Bool.not_eq_true'] at hokg
        exact ⟨List.isEmpty_eq_false.mp hokg.1, List.all_eq_true.mp hokg.2⟩
      rw [show (SelectorElement.to_string (.Tag v)).toList = v.toList from rfl,
        lex_ident_run v.toList _ hok2.1 hok2.2
          (renderSel_head_not_ident t hallt (head_not_tag_of_pair hpair rfl)),
        string_mk_toList, ih hwft]
      rfl
    | Id v =>
      have hok2 : v.toList ≠ [] ∧ ∀ c ∈ v.toList, isIdentChar c = true := by
        simp only [elementOK, goodName, Bool.and_eq_true, Bool.not_eq_true'] at hokg
        exact ⟨List.isEmpty_eq_false.mp hokg.1, List.all_eq_true.mp hokg.2⟩
      have hheadid := renderSel_head_not_ident t hallt (head_not_tag_of_pair hpair rfl)
      have htw : (v.toList ++ (renderSel t).toList).takeWhile isIdentChar = v.toList := by
        rw [List.takeWhile_append_of_pos hok2.2, takeWhile_head_false hheadid, List.append_nil]
      have hdw : (v.toList ++ (renderSel t).toList).dropWhile isIdentChar
          = (renderSel t).toList := by
        rw [List.dropWhile_append_of_pos hok2.2, dropWhile_head_false hheadid]
      rw [show (SelectorElement.to_string (.Id v)).toList = '#' :: v.toList from rfl,
        List.cons_append, lex, if_neg (by decide), if_neg (by decide), if_neg (by decide),
        if_pos rfl, htw, hdw, if_neg (by simp only [List.isEmpty_eq_true]; exact hok2.1), string_mk_toList, ih hwft]
      rfl
    | Class v =>
      have hok2 : v.toList ≠ [] ∧ ∀ c ∈ v.toList, isIdentChar c = true := by
        simp only [elementOK, goodName, Bool.and_eq_true, Bool.not_eq_true'] at hokg
        exact ⟨List.isEmpty_eq_false.mp hokg.1, List.all_eq_true.mp hokg.2⟩
      rw [show (SelectorElement.to_string (.Class v)).toList = '.' :: v.toList from rfl,
        List.cons_append, lex, if_neg (by decide), if_neg (by decide), if_pos rfl,
        lex_ident_run v.toList _ hok2.1 hok2.2
          (renderSel_head_not_ident t hallt (head_not_tag_of_pair hpair rfl)),
        string_mk_toList, ih hwft]
      rfl
    | State v =>
      have hok2 : v.toList ≠ [] ∧ ∀ c ∈ v.toList, isIdentChar c = true := by
        simp only [elementOK, goodName, Bool.and_eq_true, Bool.not_eq_true'] at hokg
        exact ⟨List.isEmpty_eq_false.mp hokg.1, List.all_eq_true.mp hokg.2⟩
      rw [show (SelectorElement.to_string (.State v)).toList = ':' :: v.toList from rfl,
        List.cons_append, lex, if_neg (by decide), if_pos rfl,
        lex_ident_run v.toList _ hok2.1 hok2.2
          (renderSel_head_not_ident t hallt (head_not_tag_of_pair hpair rfl)),
        string_mk_toList, ih hwft]
      rfl

theorem mk_ne_empty {d : Char} {ds : List Char} : ¬ String.mk (d :: ds) = "" := by
  intro h
  have : (String.mk (d :: ds)).data = ("" : String).data := by rw [h]
  simp at this

theorem goodName_ne_empty {v : String} (h : goodName v = true) : ¬ v = "" := by
  intro hv
  subst hv
  simp [goodName] at h

theorem runTokens_canon (gs : List SelectorElement) (hok : ∀ g ∈ gs, elementOK g = true) :
    ∀ acc, runTokens ((gs.map tokensOf).flatten) 0 acc = .ok (gs.reverse ++ acc) := by
  induction gs with
  | nil => intro acc; rfl
  | cons g t ih =>
    intro acc
    have hokg := hok g (List.mem_cons_self _ _)
    have hokt : ∀ x ∈ t, elementOK x = true := fun x hx => hok x (List.mem_cons_of_mem _ hx)
    rw [List.map_cons, List.flatten_cons]
    cases g with
    | AnyChild =>
      rw [show tokensOf .AnyChild = [CssToken.ws] from rfl, List.singleton_append, runTokens,
        ih hokt (.AnyChild :: acc)]
      simp [List.reverse_cons, List.append_assoc]
    | Tag v =>
      rw [show tokensOf (.Tag v) = [CssToken.ident v] from rfl, List.singleton_append, runTokens,
        if_pos rfl, ih hokt (.Tag v :: acc)]
      simp [List.reverse_cons, List.append_assoc]
    | Id v =>
      have hv : ¬ v = "" := goodName_ne_empty (by simpa [elementOK] using hokg)
      rw [show tokensOf (.Id v) = [CssToken.idHash v] from rfl, List.singleton_append, runTokens,
        if_neg hv, ih hokt (.Id v :: acc)]
      simp [List.reverse_cons, List.append_assoc]
    | Class v =>
      rw [show tokensOf (.Class v) = [CssToken.delim '.', CssToken.ident v] from rfl,
        List.cons_append, List.singleton_append, runTokens, if_pos rfl, runTokens,
        if_neg (by decide), if_pos rfl, ih hokt (.Class v :: acc)]
      simp [List.reverse_cons, List.append_assoc]
    | State v =>
      rw [show tokensOf (.State v) = [CssToken.colon, CssToken.ident v] from rfl,
        List.cons_append, List.singleton_append, runTokens, runTokens,
        if_neg (by decide), if_neg (by decide), if_pos rfl, ih hokt (.State v :: acc)]
      simp [List.reverse_cons, List.append_assoc]

theorem parse_renderSel (gs : List SelectorElement) (hwf : wellFormed gs = true) :
    parseSelector (renderSel gs) = .ok gs.reverse := by
  unfold parseSelector
  have hall : ∀ g ∈ gs, elementOK g = true := by
    simp only [wellFormed, Bool.and_eq_true] at hwf
    exact List.all_eq_true.mp hwf.1
  rw [lex_renderSel gs hwf, runTokens_canon gs hall [], List.append_nil]

/-- C6 (counterexample): parsing `" div#id.cls span:attr "` does not put the
`span:attr` compound at sequence offset 0: the trailing source whitespace
inserts a combinator at the front, so offset 0 holds `AnyChild`. -/
theorem sample_offset_zero_is_combinator :
    parseSelector sampleSource = .ok sampleParsed ∧
    sampleParsed.get? 0 = some SelectorElement.AnyChild ∧
    SelectorEntry.is_any_child sampleParsed 0 = true ∧
    (sampleParsed.drop 0).takeWhile (fun e => e.is_value) = [] := by
  refine ⟨?_, rfl, rfl, rfl⟩
  have h := parse_renderSel sampleElements (by decide)
  rw [show renderSel sampleElements = sampleSource from rfl] at h
  rw [h]
  rfl

/-- C6 (amended): the tokenizer inserts every element at the front of the
sequence (the result extends the accumulator by a prefix), so storage is
right-to-left; parsing `" div#id.cls span:attr "` yields exactly two compounds,
the rightmost one (`span:attr`) at offset 1 (not 0: a combinator from the
trailing whitespace sits at offset 0) and `div#id.cls` at offset 4, reached
from offset 1 by `next()` twice (through the combinator at offset 3); the
`next()` chain 0 → 1 → 3 → 4 → 7 → end visits no other compound. -/
theorem front_insertion_structure :
    (∀ (ts : List CssToken) (nxt : Nat) (acc res : List SelectorElement),
      runTokens ts nxt acc = .ok res → ∃ out, res = out ++ acc) ∧
    parseSelector sampleSource = .ok sampleParsed ∧
    SelectorEntry.next sampleParsed 0 = some 1 ∧
    (sampleParsed.drop 1).takeWhile (fun e => e.is_value)
      = [.State "attr", .Tag "span"] ∧
    SelectorEntry.next sampleParsed 1 = some 3 ∧
    SelectorEntry.next sampleParsed 3 = some 4 ∧
    (sampleParsed.drop 4).takeWhile (fun e => e.is_value)
      = [.Class "cls", .Id "id", .Tag "div"] ∧
    SelectorEntry.next sampleParsed 4 = some 7 ∧
    SelectorEntry.next sampleParsed 7 = none := by
  refine ⟨?_, ?_, by decide, by decide, by decide, by decide, by decide, by decide, by decide⟩
  · intro ts
    induction ts with
    | nil =>
      intro nxt acc res h
      rw [runTokens] at h
      injection h with h
      exact ⟨[], h.symm⟩
    | cons tok ts ih =>
      intro nxt acc res h
      cases tok with
      | ident v =>
        rw [runTokens] at h
        by_cases h0 : nxt = 0
        · rw [if_pos h0] at h
          obtain ⟨out, ho⟩ := ih 0 _ res h
          exact ⟨out ++ [.Tag v], by rw [ho, List.append_assoc]; rfl⟩
        · rw [if_neg h0] at h
          by_cases h1 : nxt = 1
          · rw [if_pos h1] at h
            obtain ⟨out, ho⟩ := ih 0 _ res h
            exact ⟨out ++ [.Class v], by rw [ho, List.append_assoc]; rfl⟩
          · rw [if_neg h1] at h
            by_cases h2 : nxt = 2
            · rw [if_pos h2] at h
              obtain ⟨out, ho⟩ := ih 0 _ res h
              exact ⟨out ++ [.State v], by rw [ho, List.append_assoc]; rfl⟩
            · rw [if_neg h2] at h
              cases h
      | idHash v =>
        rw [runTokens] at h
        by_cases hv : v = ""
        · rw [if_pos hv] at h
          cases h
        · rw [if_neg hv] at h
          obtain ⟨out, ho⟩ := ih nxt _ res h
          exact ⟨out ++ [.Id v], by rw [ho, List.append_assoc]; rfl⟩
      | ws =>
        rw [runTokens] at h
        obtain ⟨out, ho⟩ := ih nxt _ res h
        exact ⟨out ++ [.AnyChild], by rw [ho, List.append_assoc]; rfl⟩
      | colon =>
        rw [runTokens] at h
        exact ih 2 acc res h
      | delim c =>
        rw [runTokens] at h
        by_cases hc : c = '.'
        · rw [if_pos hc] at h
          exact ih 1 acc res h
        · rw [if_neg hc] at h
          cases h
  · have h := parse_renderSel sampleElements (by decide)
    rw [show renderSel sampleElements = sampleSource from rfl] at h
    rw [h]
    rfl

/-- C6 witness: a single front insertion, exhibited on one whitespace token. -/
theorem front_insertion_structure_witness :
    runTokens [CssToken.ws] 0 [] = .ok [SelectorElement.AnyChild] ∧
    ∃ out, [SelectorElement.AnyChild] = out ++ ([] : List SelectorElement) := by
  exact ⟨rfl, front_insertion_structure.1 [CssToken.ws] 0 [] [SelectorElement.AnyChild] rfl⟩

/-- C3 (counterexample): the tokenizer output for the source `" div"` (leading
whitespace) stores the combinator as the LAST element, and matching it against
a chain with at least one ancestor panics (the `selector.next().unwrap()`),
refuting the claim that `matches` evaluates without runtime error on every
tokenizer output. -/
theorem leading_space_matches_panics :
    parseSelector " div" = .ok [SelectorElement.Tag "div", SelectorElement.AnyChild] ∧
    Selector.matches ⟨0, 0, [SelectorElement.Tag "div", SelectorElement.AnyChild]⟩
      (nodeOf "div") [nodeOf "div"] = none := by
  constructor
  · have h := parse_renderSel [SelectorElement.AnyChild, SelectorElement.Tag "div"] (by decide)
    rw [show renderSel [SelectorElement.AnyChild, SelectorElement.Tag "div"] = " div" from
      rfl] at h
    rw [h]
    rfl
  · unfold Selector.matches
    show EmlNode.fits [SelectorElement.Tag "div", SelectorElement.AnyChild] 0
      (nodeOf "div") [nodeOf "div"] = none
    have hg0 : ([SelectorElement.Tag "div", SelectorElement.AnyChild]
        : List SelectorElement).get? 0 = some (SelectorElement.Tag "div") := rfl
    have hg1 : ([SelectorElement.Tag "div", SelectorElement.AnyChild]
        : List SelectorElement).get? 1 = some SelectorElement.AnyChild := rfl
    have hn0 : SelectorEntry.next [SelectorElement.Tag "div", SelectorElement.AnyChild] 0
        = some 1 := by decide
    have hn1 : SelectorEntry.next [SelectorElement.Tag "div", SelectorElement.AnyChild] 1
        = none := by decide
    rw [EmlNode.fits_val_true_cons_some (nodeOf "div") [] hg0 rfl (by decide) hn0]
    rw [EmlNode.fits_any_none (nodeOf "div") [] hg1 rfl hn1]

/-- C8: serialization reproduces the source of any selector parsed from a
well-formed source, and re-parsing `to_string`'s output yields the identical
stored element sequence. -/
theorem to_string_roundtrip (s : String) (gs els : List SelectorElement)
    (hwf : wellFormed gs = true) (hs : s = renderSel gs)
    (hp : parseSelector s = .ok els) :
    Selector.to_string ⟨0, 0, els⟩ = s ∧
    parseSelector (Selector.to_string ⟨0, 0, els⟩) = .ok els := by
  subst hs
  have h2 := parse_renderSel gs hwf
  rw [hp] at h2
  injection h2 with hels
  subst hels
  have hts : Selector.to_string ⟨0, 0, gs.reverse⟩ = renderSel gs := by
    unfold Selector.to_string renderSel
    rw [List.reverse_reverse]
  refine ⟨hts, ?_⟩
  rw [hts]
  exact parse_renderSel gs hwf

/-- C8 witness: round trip on the test source `" div#id.cls span:attr "`. -/
theorem to_string_roundtrip_witness :
    wellFormed sampleElements = true ∧
    Selector.to_string ⟨0, 0, sampleParsed⟩ = sampleSource ∧
    parseSelector (Selector.to_string ⟨0, 0, sampleParsed⟩) = .ok sampleParsed := by
  have hp : parseSelector sampleSource = .ok sampleParsed := by
    have h := parse_renderSel sampleElements (by decide)
    rw [show renderSel sampleElements = sampleSource from rfl] at h
    rw [h]
    rfl
  have h := to_string_roundtrip sampleSource sampleElements sampleParsed (by decide)
    (by rfl) hp
  exact ⟨by decide, h.1, h.2⟩

theorem lex_idHash_nonempty : ∀ (l : List Char) (v : String),
    CssToken.idHash v ∈ lex l → ¬ v = ""
  | [], v, hv => by
    rw [lex] at hv
    exact absurd hv (by simp)
  | c :: rest, v, hv => by
    rw [lex] at hv
    by_cases h1 : isSpaceChar c = true
    · rw [if_pos h1] at hv
      rcases List.mem_cons.mp hv with h | h
      · exact absurd h (by simp)
      · exact lex_idHash_nonempty _ _ h
    · rw [if_neg h1] at hv
      by_cases h2 : c = ':'
      · rw [if_pos h2] at hv
        rcases List.mem_cons.mp hv with h | h
        · exact absurd h (by simp)
        · exact lex_idHash_nonempty _ _ h
      · rw [if_neg h2] at hv
        by_cases h3 : c = '.'
        · rw [if_pos h3] at hv
          rcases List.mem_cons.mp hv with h | h
          · exact absurd h (by simp)
          · exact lex_idHash_nonempty _ _ h
        · rw [if_neg h3] at hv
          by_cases h4 : c = '#'
          · rw [if_pos h4] at hv
            by_cases h5 : (rest.takeWhile isIdentChar).isEmpty = true
            · rw [if_pos h5] at hv
              rcases List.mem_cons.mp hv with h | h
              · exact absurd h (by simp)
              · exact lex_idHash_nonempty _ _ h
            · rw [if_neg h5] at hv
              rcases List.mem_cons.mp hv with h | h
              · injection h with hveq
                subst hveq
                cases htw : rest.takeWhile isIdentChar with
                | nil => exact absurd (by rw [htw]; rfl) h5
                | cons d ds => exact mk_ne_empty
              · exact lex_idHash_nonempty _ _ h
          · rw [if_neg h4] at hv
            by_cases h6 : isIdentChar c = true
            · rw [if_pos h6] at hv
              rcases List.mem_cons.mp hv with h | h
              · exact absurd h (by simp)
              · exact lex_idHash_nonempty _ _ h
            · rw [if_neg h6] at hv
              rcases List.mem_cons.mp hv with h | h
              · exact absurd h (by simp)
              · exact lex_idHash_nonempty _ _ h
termination_by l => l.length
decreasing_by
  all_goals simp_wf
  all_goals
    first
    | omega
    | (have hle : (List.dropWhile isSpaceChar rest).length ≤ rest.length :=
        (List.dropWhile_sublist isSpaceChar).length_le
       omega)
    | (have hle : (List.dropWhile isIdentChar rest).length ≤ rest.length :=
        (List.dropWhile_sublist isIdentChar).length_le
       omega)

theorem runTokens_err_iff (ts : List CssToken)
    (hok : ∀ v, CssToken.idHash v ∈ ts → ¬ v = "") :
    ∀ (nxt : Nat), nxt < 3 → ∀ (acc : List SelectorElement),
      (runTokens ts nxt acc).isOk = false ↔
        ∃ c, CssToken.delim c ∈ ts ∧ ¬ c = '.' := by
  induction ts with
  | nil =>
    intro nxt hn acc
    rw [runTokens]
    simp [Except.isOk, Except.toBool]
  | cons tok ts ih =>
    intro nxt hn acc
    have hokt : ∀ v, CssToken.idHash v ∈ ts → ¬ v = "" :=
      fun v hv => hok v (List.mem_cons_of_mem _ hv)
    cases tok with
    | ident v =>
      rw [runTokens]
      interval_cases nxt
      · rw [if_pos rfl, ih hokt 0 (by omega) (.Tag v :: acc)]
        simp [List.mem_cons]
      · rw [if_neg (by decide), if_pos rfl, ih hokt 0 (by omega) (.Class v :: acc)]
        simp [List.mem_cons]
      · rw [if_neg (by decide), if_neg (by decide), if_pos rfl,
          ih hokt 0 (by omega) (.State v :: acc)]
        simp [List.mem_cons]
    | idHash v =>
      rw [runTokens, if_neg (hok v (List.mem_cons_self _ _)),
        ih hokt nxt hn (.Id v :: acc)]
      simp [List.mem_cons]
    | ws =>
      rw [runTokens, ih hokt nxt hn (.AnyChild :: acc)]
      simp [List.mem_cons]
    | colon =>
      rw [runTokens, ih hokt 2 (by omega) acc]
      simp [List.mem_cons]
    | delim c =>
      rw [runTokens]
      by_cases hc : c = '.'
      · subst hc
        rw [if_pos rfl, ih hokt 1 (by omega) acc]
        constructor
        · rintro ⟨c2, hm, hc2⟩
          exact ⟨c2, List.mem_cons_of_mem _ hm, hc2⟩
        · rintro ⟨c2, hm, hc2⟩
          rcases List.mem_cons.mp hm with h | h
          · injection h with he
            exact absurd he hc2
          · exact ⟨c2, h, hc2⟩
      · rw [if_neg hc]
        constructor
        · intro hfoo
          exact ⟨c, List.mem_cons_self _ _, hc⟩
        · intro hfoo
          rfl

/-- C7: construction of a selector from source fails exactly when the token
stream contains an unrecognized delimiter (any delimiter other than `.`; in
particular a bare `#`, the shape an id marker with an empty name lexes to);
the only other in-source failure conditions — an empty `#id` name on a hash
token and an identifier arriving in an invalid interpretation state — are
unreachable from the lexer (hash names are never empty, the state flag stays in
0..2).  On every well-formed source of tags, ids, classes, states and
whitespace, construction succeeds. -/
theorem parse_failure_characterization :
    (∀ s : String, (parseSelector s).isOk = false ↔
      ∃ c, CssToken.delim c ∈ lex s.toList ∧ ¬ c = '.') ∧
    (∀ gs : List SelectorElement, wellFormed gs = true →
      (parseSelector (renderSel gs)).isOk = true) := by
  constructor
  · intro s
    exact runTokens_err_iff (lex s.toList)
      (fun v hv => lex_idHash_nonempty _ v hv) 0 (by omega) []
  · intro gs hwf
    rw [parse_renderSel gs hwf]
    rfl

/-- C7 witness: construction succeeds on the well-formed test source. -/
theorem parse_failure_characterization_witness :
    wellFormed sampleElements = true ∧
    (parseSelector (renderSel sampleElements)).isOk = true :=
  ⟨by decide, parse_failure_characterization.2 sampleElements (by decide)⟩
